import Mathlib

/-!
A shallow embedding of the SeedHammer controller GUI (package `gui`,
file `gui/gui.go`) together with proofs about its event model, its
confirm-hold gesture, its engrave and scan sessions, its descriptor
validation and its idle/screensaver handling.

Conventions used throughout:
- time is modelled in integer milliseconds; the integer `0` models Go's zero
  `time.Time`, which the source uses as a "not armed" sentinel;
- Go channels owned by a session are modelled by presence booleans, device
  handles by `Option Nat`;
- code that can panic (out-of-range indexing) returns `Option`;
- rendering (the `op`, `assets`, `text`, `widget` packages) carries no
  control-flow state and is omitted from the embedded functions.
-/

namespace SHGui

/-! ### Time and the confirm-hold timer (`ConfirmDelay`, gui.go:752-777) -/

/-- Source constant `confirmDelay = 1 * time.Second` (gui.go:777). -/
def confirmDelayMs : Int := 1000

/-- Source constant `repeatStartDelay = 400 * time.Millisecond` (gui.go:115). -/
def repeatStartDelayMs : Int := 400

/-- Source constant `repeatDelay = 100 * time.Millisecond` (gui.go:116). -/
def repeatDelayMs : Int := 100

/-- Method `ConfirmDelay.Start` (gui.go:756-758): arm the timer at
`now + delay`.  The whole `ConfirmDelay` state is its `timeout` field. -/
def cdStart (now delay : Int) : Int := now + delay

/-- Method `ConfirmDelay.Running` (gui.go:773-775): the timeout is not the
zero time. -/
def cdRunning (timeout : Int) : Bool := timeout ≠ 0

/-- Method `ConfirmDelay.Progress` (gui.go:760-771).  The Go code computes in
float32/float64; rationals model that arithmetic exactly for the values the
claims evaluate.  Progress of an armed timer is `1 - d/confirmDelay` where
`d` is the time left: the denominator is the global constant `confirmDelay`,
not the duration that was passed to `Start`. -/
def cdProgress (now timeout : Int) : ℚ :=
  if ¬ cdRunning timeout then 0
  else
    let d : Int := timeout - now
    if d ≤ 0 then 1
    else 1 - (d : ℚ) / (confirmDelayMs : ℚ)

/-- The contract claimed by the spec for `Progress` (claim C7), written from
the spec's words for comparison with `cdProgress`: 0 when not armed, 1 from
the deadline on, otherwise the linear interpolation between the arming time
and the deadline. -/
def specProgressContract (armed : Bool) (armTime deadline now : Int) : ℚ :=
  if ¬ armed then 0
  else if deadline ≤ now then 1
  else ((now - armTime : Int) : ℚ) / ((deadline - armTime : Int) : ℚ)

/-! ### Input events and `Context` (gui.go:47-164)

The `seedhammer.com/input` package is not under src/.  Modelled from the
spec: buttons are normalized to small integers indexing the fixed
button-state array of size `nbuttons = 8` (spec section 3, "ButtonState"; the
source guards with `int(e.Button) < len(c.Buttons)`); the directional
buttons are the repeatable ones (gui.go:118-124); `Button1..Button3` are
consecutive (gui.go:2514); `Rune` and `Screenshot` fall outside the state
array. -/

/-- Source constant `nbuttons = 8` (gui.go:47). -/
def nbuttons : Nat := 8

def upButton : Nat := 0
def downButton : Nat := 1
def leftButton : Nat := 2
def rightButton : Nat := 3
def centerButton : Nat := 4
def button1 : Nat := 5
def button2 : Nat := 6
def button3 : Nat := 7
def runeButton : Nat := 8
def screenshotButton : Nat := 9

/-- Function `isRepeatButton` (gui.go:118-124). -/
def isRepeatButton (b : Nat) : Bool :=
  b == upButton || b == downButton || b == rightButton || b == leftButton

/-- An `input.Event` as submitted by the platform: button, pressed flag and
optional rune. -/
structure RawEvent where
  button : Nat
  pressed : Bool
  rune : Char := ' '
deriving Repr, DecidableEq

/-- Type `gui.Event` (gui.go:63-66): an input event together with the
derived `Click` flag. -/
structure Event where
  button : Nat
  pressed : Bool
  rune : Char := ' '
  click : Bool := false
deriving Repr, DecidableEq

/-- The fields of `gui.Context` owned by the event model (gui.go:49-61): the
button-state array, the per-button repeat deadlines and the pending event
queue. -/
structure Ctx where
  buttons : List Bool := List.replicate nbuttons false
  repeats : List Int := List.replicate nbuttons 0
  events : List Event := []
deriving Repr, DecidableEq

/-- One iteration of method `Context.Events` (gui.go:142-155): derive the
`Click` flag from the button-state array, update the array, arm the repeat
deadline for repeatable presses, and append the event to the queue. -/
def ctxEvent (now : Int) (c : Ctx) (e : RawEvent) : Ctx :=
  if e.button < c.buttons.length then
    let click := !e.pressed && c.buttons.getD e.button false
    let buttons := c.buttons.set e.button e.pressed
    let repeats :=
      if e.pressed && isRepeatButton e.button then
        c.repeats.set e.button (now + repeatStartDelayMs)
      else c.repeats
    { buttons := buttons, repeats := repeats,
      events := c.events ++
        [{ button := e.button, pressed := e.pressed, rune := e.rune, click := click }] }
  else
    { c with events := c.events ++
        [{ button := e.button, pressed := e.pressed, rune := e.rune }] }

/-- Method `Context.Events` (gui.go:142-155) over a slice of events. -/
def ctxEvents (now : Int) (c : Ctx) (evts : List RawEvent) : Ctx :=
  evts.foldl (ctxEvent now) c

/-- One button of method `Context.Repeat` (gui.go:126-140): a held repeatable
button whose deadline has passed emits one synthetic press event and rearms
at `now + repeatDelay`. -/
def ctxRepeatStep (now : Int) (c : Ctx) (btn : Nat) : Ctx :=
  if c.buttons.getD btn false && isRepeatButton btn && !(now < c.repeats.getD btn 0) then
    { c with
      events := c.events ++ [{ button := btn, pressed := true }],
      repeats := c.repeats.set btn (now + repeatDelayMs) }
  else c

/-- Method `Context.Repeat` (gui.go:126-140). -/
def ctxRepeat (now : Int) (c : Ctx) : Ctx :=
  (List.range nbuttons).foldl (ctxRepeatStep now) c

/-! ### The hold-to-confirm warning screen (`ConfirmWarningScreen`,
gui.go:736-819) -/

/-- Type `ConfirmResult` (gui.go:744-750). -/
inductive ConfirmResult where
  | cnone
  | cno
  | cyes
deriving Repr, DecidableEq

/-- The state of a `ConfirmWarningScreen` (gui.go:736-742): its embedded
`ConfirmDelay` timeout.  Title, body and icon are rendering-only. -/
structure ConfirmWarning where
  confirm : Int := 0
deriving Repr, DecidableEq

/-- Event loop of method `ConfirmWarningScreen.Layout` (gui.go:779-803),
recursing on the context's event queue (the other context fields are passed
alongside); the rendering tail (gui.go:804-818) is omitted.  Per iteration:
when the hold progress has reached 1 the screen confirms; otherwise one
event is popped.  A click of Button1 declines; a press of Button3 clears the
button's pressed flag in the button-state array and arms the hold timer; a
release of Button3 disarms it. -/
def cwLoop (now : Int) (s : ConfirmWarning) (buttons : List Bool)
    (repeats : List Int) :
    List Event → ConfirmWarning × Ctx × ConfirmResult
  | [] =>
    if cdProgress now s.confirm = 1 then (s, ⟨buttons, repeats, []⟩, .cyes)
    else (s, ⟨buttons, repeats, []⟩, .cnone)
  | e :: rest =>
    if cdProgress now s.confirm = 1 then (s, ⟨buttons, repeats, e :: rest⟩, .cyes)
    else
      if e.button = button1 then
        if e.click then (s, ⟨buttons, repeats, rest⟩, .cno)
        else cwLoop now s buttons repeats rest
      else if e.button = button3 then
        if e.pressed then
          cwLoop now { confirm := cdStart now confirmDelayMs }
            (buttons.set button3 false) repeats rest
        else cwLoop now { confirm := 0 } buttons repeats rest
      else cwLoop now s buttons repeats rest

/-- Method `ConfirmWarningScreen.Layout` (gui.go:779-803) on a context. -/
def cwLayout (now : Int) (s : ConfirmWarning) (ctx : Ctx) :
    ConfirmWarning × Ctx × ConfirmResult :=
  cwLoop now s ctx.buttons ctx.repeats ctx.events

/-! ### The engrave session (`EngraveScreen`, gui.go:849-1085,1087-1277) -/

/-- Type `InstructionType` (gui.go:1305-1311). -/
inductive InstrType where
  | prepare
  | connect
  | engrave
deriving Repr, DecidableEq

/-- Type `Instruction` (gui.go:1313-1321): `Type` and `Side` drive control
flow; body, lead and image are rendering-only and omitted. -/
structure Instr where
  type : InstrType := .prepare
  side : Nat := 0
deriving Repr, DecidableEq

/-- Type `ErrorScreen` (gui.go:711-714).  The formatted path/fingerprint
inserts of the source bodies are dropped. -/
structure ErrorScreenM where
  title : String
  body : String
deriving Repr, DecidableEq

/-- Type `engraveState` (gui.go:1011-1019).  The three channels are modelled
by presence booleans and the device handle by an optional identifier. -/
structure EngraveState where
  dev : Option Nat := none
  cancel : Bool := false
  progressCh : Bool := false
  errsCh : Bool := false
  lastProgress : ℚ := 0
  warning : Option ErrorScreenM := none
  fatal : Bool := false
deriving Repr, DecidableEq

/-- The "Connection Error" warning built in `EngraveScreen.moveStep`
(gui.go:1048-1051). -/
def connectionErrorWarning : ErrorScreenM :=
  { title := "Connection Error"
    body := "Failed to establish a connection to the engraver." }

/-- The fatal warning built in `EngraveScreen.Layout` on a worker error
(gui.go:1097-1103). -/
def connectionFailedWarning : ErrorScreenM :=
  { title := "Connection Error"
    body := "Connection to the engraver failed." }

/-- The control-flow fields of `EngraveScreen` (gui.go:849-862). -/
structure EngraveScreenM where
  instructions : List Instr
  step : Nat := 0
  cancelDialog : Option ConfirmWarning := none
  dryRunTimeout : Int := 0
  dryRunEnabled : Bool := false
  engrave : EngraveState := {}
  confirm : Int := 0
deriving Repr, DecidableEq

/-- The observable effects of the goroutine spawned by
`EngraveScreen.close` (gui.go:1021-1036): it closes the cancel channel when
one exists and waits — bounded by 5 seconds — on the errs channel when one
exists.  Its body contains no call that closes the device handle. -/
structure Teardown where
  closesCancel : Bool
  waitsForWorker : Bool
  closesDev : Bool
deriving Repr, DecidableEq

/-- Effects of the teardown goroutine of `EngraveScreen.close`
(gui.go:1024-1035), as a function of the engrave state it captured. -/
def closeTeardown (e : EngraveState) : Teardown :=
  { closesCancel := e.cancel
    waitsForWorker := e.errsCh
    closesDev := false }

/-- Method `EngraveScreen.close` (gui.go:1021-1036): reset the screen's
engrave state and spawn the teardown goroutine. -/
def engraveClose (s : EngraveScreenM) : EngraveScreenM × Teardown :=
  ({ s with engrave := {} }, closeTeardown s.engrave)

/-- The engrave worker goroutine (gui.go:1075-1081) closes the device exactly
when `mjolnir.Engrave` returns (acknowledges); `workerAcks = false` models a
worker that never returns. -/
def workerClosesDev (workerAcks : Bool) : Bool := workerAcks

/-- Whether the engraver device handle is ever closed after the
hold-to-confirm cancel path has run `EngraveScreen.close`: either by the
teardown goroutine, or by the engrave worker itself if it acknowledges. -/
def devClosedAfterCancel (e : EngraveState) (workerAcks : Bool) : Bool :=
  (closeTeardown e).closesDev || (e.errsCh && workerClosesDev workerAcks)

/-- Second half of `EngraveScreen.moveStep` (gui.go:1056-1084), after the
connect handling: advance the step cursor, end the session (via `close`)
when past the last instruction, and start the engrave worker when the new
instruction is an engrave instruction.  `none` models the index panic the
Go code would hit on an out-of-range step. -/
def moveStepCore (s : EngraveScreenM) : Option (EngraveScreenM × Bool) :=
  let s := { s with step := s.step + 1 }
  if s.step = s.instructions.length then
    some ((engraveClose s).1, true)
  else
    match s.instructions.get? s.step with
    | none => none
    | some ins =>
      if ins.type = .engrave then
        some ({ s with engrave := { s.engrave with
                  cancel := true, errsCh := true, progressCh := true } }, false)
      else some (s, false)

/-- Method `EngraveScreen.moveStep` (gui.go:1038-1085).  `engraver` is the
result of `ctx.Platform.Engraver()`: `some d` a fresh device handle, `none`
a connection error.  On a connect instruction: an existing device handle
makes the whole call a no-op; a failed open resets the engrave state, sets
the non-fatal connection warning and stays on the step; a successful open
stores the fresh handle and falls through to the advance. -/
def moveStep (engraver : Option Nat) (s : EngraveScreenM) :
    Option (EngraveScreenM × Bool) :=
  match s.instructions.get? s.step with
  | none => none
  | some ins =>
    if ins.type = .connect then
      if s.engrave.dev.isSome then some (s, false)
      else
        match engraver with
        | none =>
            some ({ s with engrave := { warning := some connectionErrorWarning } },
              false)
        | some d => moveStepCore { s with engrave := { dev := some d } }
    else moveStepCore s

/-- The progress branch of the worker drain in `EngraveScreen.Layout`
(gui.go:1091-1092). -/
def workerProgress (p : ℚ) (s : EngraveScreenM) : EngraveScreenM :=
  { s with engrave := { s.engrave with lastProgress := p } }

/-- The completion branch of the worker drain in `EngraveScreen.Layout`
(gui.go:1093-1113): reset the engrave state; a worker error becomes a fatal
warning; success advances the step and ends the screen (`Layout` returns
true) when past the last instruction.  Setting `ctx.Calibrated` (gui.go:1106)
is omitted. -/
def workerResult (err : Bool) (s : EngraveScreenM) : EngraveScreenM × Bool :=
  if err then
    ({ s with engrave := { warning := some connectionFailedWarning, fatal := true } },
      false)
  else
    let s := { s with engrave := {}, step := s.step + 1 }
    (s, s.step = s.instructions.length)

/-- Expression `canPrev` of `EngraveScreen.Layout` (gui.go:1122). -/
def canPrev (s : EngraveScreenM) : Bool :=
  decide (0 < s.step) &&
    (match s.instructions.get? (s.step - 1) with
     | some ins => decide (ins.type = .prepare)
     | none => false)

/-- The Button1 click branch of `EngraveScreen.Layout` (gui.go:1169-1181):
step back past a preparation instruction, otherwise open the cancel
hold-to-confirm dialog. -/
def backStep (s : EngraveScreenM) : EngraveScreenM :=
  if canPrev s then { s with step := s.step - 1 }
  else { s with cancelDialog := some {} }

/-- The Button3 branch of `EngraveScreen.Layout` on a Connect instruction
(gui.go:1189-1197): a press clears the button's pressed flag in the
button-state array and arms the hold timer; a release clears the timer. -/
def engraveConnectButton3 (now : Int) (e : Event) (s : EngraveScreenM)
    (buttons : List Bool) : EngraveScreenM × List Bool :=
  if e.pressed then
    ({ s with confirm := cdStart now confirmDelayMs }, buttons.set button3 false)
  else ({ s with confirm := 0 }, buttons)

/-- The hold-completion step of `EngraveScreen.Layout` (gui.go:1124-1128):
when the hold progress has reached 1, perform `moveStep` and clear the
timer; otherwise leave the state unchanged. -/
def engraveProgressFire (now : Int) (engraver : Option Nat) (s : EngraveScreenM) :
    Option EngraveScreenM :=
  if cdProgress now s.confirm = 1 then
    (moveStep engraver s).map fun r => { r.1 with confirm := 0 }
  else some s

/-- Instruction sequence `EngraveFirstSideA` (gui.go:1324-1372): nine
preparation steps, then connect, then engrave side 0. -/
def engraveFirstSideA : List Instr :=
  List.replicate 9 { type := .prepare } ++
    [{ type := .connect }, { type := .engrave, side := 0 }]

/-- Instruction sequence `EngraveSideA` (gui.go:1374-1399). -/
def engraveSideA : List Instr :=
  List.replicate 4 { type := .prepare } ++
    [{ type := .connect }, { type := .engrave, side := 0 }]

/-- Instruction sequence `EngraveSideB` (gui.go:1401-1417). -/
def engraveSideB : List Instr :=
  List.replicate 2 { type := .prepare } ++
    [{ type := .connect }, { type := .engrave, side := 1 }]

/-- Instruction sequence `EngraveSuccess` (gui.go:1419-1423). -/
def engraveSuccess : List Instr := [{ type := .prepare }]

/-- The instruction list built by `NewEngraveScreen` (gui.go:980-988) as a
function of `ctx.Calibrated` and the number of plate sides. -/
def newEngraveInstructions (calibrated : Bool) (nsides : Nat) : List Instr :=
  (if ¬ calibrated then engraveFirstSideA else engraveSideA) ++
    (if 1 < nsides then engraveSideB else []) ++ engraveSuccess

/-! ### Descriptor validation (gui.go:864-965) and the confirmation gate
(`DescriptorScreen.Layout`, gui.go:440-459) -/

/-- A `urtypes.KeyDescriptor` as `validateDescriptor` consumes it: the
canonical public representation `k.String()` (the `urtypes` package is not
under src/), the master fingerprint and the derivation path. -/
structure KeyDesc where
  xpub : String
  fingerprint : Nat
  derivation : List Nat
deriving Repr, DecidableEq

/-- A `urtypes.OutputDescriptor` restricted to the fields validation reads. -/
structure OutputDesc where
  threshold : Nat := 1
  keys : List KeyDesc
deriving Repr, DecidableEq

/-- The errors `validateDescriptor` can return (gui.go:866-890 and the
`backup` package sentinels). -/
inductive ValidateError where
  | duplicateKey (fingerprint : Nat)
  | nonstandardDerivation (path : List Nat)
  | descriptorTooLarge
  | notRecoverable
deriving Repr, DecidableEq

/-- Modelled from the spec: the trial engrave `engravePlate` (gui.go:942-948,
calling `backup.Engrave`, which is not under src/) fails with
`backup.ErrDescriptorTooLarge` exactly when the backup fits no supported
plate size (spec section 4.5, check (c)); `fits` abstracts that outcome. -/
def trialEngrave (fits : Bool) : Option ValidateError :=
  if fits then none else some .descriptorTooLarge

/-- The per-key loop of `validateDescriptor` (gui.go:927-941): `seen` is the
`keys` map of canonical representations already visited.  For each key in
order: the duplicate check first, then the derivation-path check (which also
fails when the descriptor has no expected standard path). -/
def checkKeys (expPath : List Nat) (seen : List String) :
    List KeyDesc → Option ValidateError
  | [] => none
  | k :: ks =>
    if seen.contains k.xpub then some (.duplicateKey k.fingerprint)
    else if expPath.length = 0 ∨ k.derivation ≠ expPath then
      some (.nonstandardDerivation k.derivation)
    else checkKeys expPath (k.xpub :: seen) ks

/-- Function `validateDescriptor` (gui.go:925-955).  `expPath` models
`desc.DerivationPath()` (`urtypes`, not under src/: the standard derivation
path for the descriptor's script type, empty when unknown), `fits` the trial
engrave and `recoverable` the external `backup.Recoverable` paranoia
check. -/
def validateDescriptor (expPath : List Nat) (fits recoverable : Bool)
    (desc : OutputDesc) : Option ValidateError :=
  match checkKeys expPath [] desc.keys with
  | some e => some e
  | none =>
    match trialEngrave fits with
    | some e => some e
    | none => if ¬ recoverable then some .notRecoverable else none

/-- Function `NewErrorScreen` (gui.go:892-923) restricted to the validation
errors; the formatted path/fingerprint inserts are dropped. -/
def newErrorScreen : ValidateError → ErrorScreenM
  | .nonstandardDerivation _ =>
      { title := "Non-standard Derivation"
        body := "The derivation path is not supported." }
  | .duplicateKey _ =>
      { title := "Duplicated Share"
        body := "The share is listed more than once in the wallet." }
  | .descriptorTooLarge =>
      { title := "Too Large"
        body := "The descriptor cannot fit any plate size." }
  | .notRecoverable =>
      { title := "Error"
        body := "Descriptor is not recoverable. That is a bug in the program; please report it." }

/-- The Button3 click branch of `DescriptorScreen.Layout` (gui.go:450-459):
a failed validation opens the error dialog describing the cause and aborts
the transition into seed entry; success opens the seed-entry screen.
Returns the warning dialog and whether seed entry was opened. -/
def descriptorConfirm (v : Option ValidateError) : Option ErrorScreenM × Bool :=
  match v with
  | some e => (some (newErrorScreen e), false)
  | none => (none, true)

/-! ### The scan session and multi-part decoding (`ScanScreen.parseQR`,
gui.go:684-709) -/

/-- Modelled from the spec: the stateful multi-part decoder `ur.Decoder`
(package `seedhammer.com/bc/ur`, not under src/).  It accumulates the
fragments of one message (spec sections 4.3 and 6).  Texts are lists of
characters (Go strings).  `URModel` abstracts the decoder's byte-level
behaviour: which message a fragment belongs to, when an accumulated
fragment list is a completed message with which (type, payload) result, and
when `Result` reports an error. -/
structure URModel where
  msgOf : List Char → Nat
  completed : List (List Char) → Option (List Char × List Char)
  resultErr : List (List Char) → Bool

/-- The decode accumulator: the fragments accepted so far. -/
structure URDecoder where
  fragments : List (List Char) := []
deriving Repr, DecidableEq

/-- Modelled from the spec: `Decoder.Add` accepts a fragment exactly when it
is compatible with — belongs to the same message as — every accumulated
fragment ("on an incompatible fragment (decoder rejects it)", spec section
4.3).  Returns the updated decoder and whether the fragment was accepted. -/
def urAdd (M : URModel) (d : URDecoder) (f : List Char) : URDecoder × Bool :=
  if d.fragments.all fun g => M.msgOf g == M.msgOf f then
    ({ fragments := d.fragments ++ [f] }, true)
  else (d, false)

/-- Outcome of `Decoder.Result`: an error, an incomplete decode (`enc ==
nil`), or a completed (type, payload). -/
inductive URResult where
  | fail
  | pending
  | done (typ enc : List Char)
deriving Repr, DecidableEq

/-- Modelled from the spec: `Decoder.Result` — `(type, payload, error)`. -/
def urResult (M : URModel) (d : URDecoder) : URResult :=
  if M.resultErr d.fragments then .fail
  else
    match M.completed d.fragments with
    | none => .pending
    | some (t, p) => .done t p

/-- The multi-part URI prefix "UR:" (gui.go:686). -/
def urQRPre : List Char := ['U', 'R', ':']

/-- The decoder `parseQR` feeds to `Result` (gui.go:690-694): the accumulator
after `Add`; on an incompatible fragment the accumulator is reset and the
same fragment re-added as the start of a new message. -/
def parseQRDecoder (M : URModel) (d : URDecoder) (uqr : List Char) :
    URDecoder :=
  let a := urAdd M d uqr
  if a.2 then a.1 else (urAdd M { fragments := [] } uqr).1

/-- Method `ScanScreen.parseQR` (gui.go:684-709) on character lists
(`strings.ToUpper` becomes a character map, `strings.HasPrefix` a list
prefix test).  `parse` models `urtypes.Parse` (not under src/), `none`
being a parse failure.  The result mirrors the Go `(any, bool)` pair:
`Sum.inl` a raw single payload returned verbatim, `Sum.inr` a decoded
multi-part value; the boolean is whether scanning is finished. -/
def parseQR (M : URModel) (parse : List Char → List Char → Option Nat)
    (d : URDecoder) (qr : List Char) :
    URDecoder × Option (List Char ⊕ Nat) × Bool :=
  let uqr := qr.map Char.toUpper
  if ¬ urQRPre.isPrefixOf uqr then ({ fragments := [] }, some (.inl qr), true)
  else
    let d2 := parseQRDecoder M d uqr
    match urResult M d2 with
    | .fail => ({ fragments := [] }, none, false)
    | .pending => (d2, none, false)
    | .done t p =>
      match parse t p with
      | none => ({ fragments := [] }, none, false)
      | some v => ({ fragments := [] }, some (.inr v), true)

/-- The accumulator holds fragments of at most one message. -/
def singleMessage (M : URModel) (d : URDecoder) : Prop :=
  ∀ f ∈ d.fragments, ∀ g ∈ d.fragments, M.msgOf f = M.msgOf g

/-! ### The word keyboard (`Keyboard`, gui.go:1851-2104)

The `seedhammer.com/bip39` package is not under src/.  Modelled from the
spec and the call sites: `Wordlist` is the sorted BIP-39 word list,
`LabelFor w` its `w`-th word, and `ClosestWord p` the first wordlist entry
having `p` as a prefix, reported invalid when there is none — the shape
`Keyboard.updateMask` relies on when it scans forward from `ClosestWord`
while the prefix still matches (gui.go:1942-1957).  Words are lists of
characters kept lowercase throughout, dropping the display-case conversions
(`strings.ToUpper`/`ToLower`) of the source; `ClosestWord`'s index result is
represented by the word it labels.  The keyboard's geometry and highlight
fields (rows, columns, positions) do not feed `Complete` and are omitted. -/

/-- A word: a list of (lowercase) characters. -/
abbrev BWord := List Char

/-- Boolean lexicographic order on words, as `strings` compares them. -/
def lexLt : BWord → BWord → Bool
  | [], [] => false
  | [], _ :: _ => true
  | _ :: _, [] => false
  | a :: as, b :: bs => decide (a < b) || (decide (a = b) && lexLt as bs)

/-- Modelled from the spec: the wordlist tail starting at `ClosestWord p`,
the first word having `p` as a prefix (empty when `ClosestWord` reports
invalid). -/
def closestTail (wl : List BWord) (p : BWord) : List BWord :=
  wl.dropWhile fun w => !(p.isPrefixOf w)

/-- The words the loop of `Keyboard.updateMask` scans (gui.go:1942-1957):
from `ClosestWord` forward while the typed prefix still matches. -/
def scanWords (wl : List BWord) (p : BWord) : List BWord :=
  (closestTail wl p).takeWhile fun w => p.isPrefixOf w

/-- Number of wordlist completions of the prefix `p`. -/
def countPre (wl : List BWord) (p : BWord) : Nat :=
  (wl.filter fun w => p.isPrefixOf w).length

/-- The state of `Keyboard` that feeds `Complete` (gui.go:1857-1872): the
typed word, the count of wordlist completions, and the key mask.  The Go
`uint32` mask has a bit set for each invalid key; it is modelled by the
predicate `maskInvalid`. -/
structure Keyboard where
  word : BWord := []
  nvalid : Nat := 0
  maskInvalid : Char → Bool := fun _ => true

/-- Method `Keyboard.updateMask` (gui.go:1934-1961): start from the
all-invalid mask; when the typed prefix has no completion leave it (and the
now-stale `nvalid`) as is; otherwise count the completions, mark valid each
next letter of a completion, and fall back to the all-invalid mask when the
completion is unique. -/
def updateMask (wl : List BWord) (k : Keyboard) : Keyboard :=
  let all := fun (_ : Char) => true
  match (closestTail wl k.word).head? with
  | none => { k with maskInvalid := all }
  | some _ =>
    let scanned := scanWords wl k.word
    let n := scanned.length
    let inv := fun r =>
      !(scanned.any fun w =>
          decide (k.word.length < w.length) && (w.getD k.word.length 'a' == r))
    { k with nvalid := n, maskInvalid := if n = 1 then all else inv }

/-- The backspace key rune (gui.go:1854). -/
def backspaceChar : Char := '⌫'

/-- Method `Keyboard.idxForRune` (gui.go:1963-1969) in the lowercase model:
a rune maps into the 32-slot mask exactly when its code point lies in the
32-slot window at 'a' (Go computes `idx := r - 'A'; 0 <= idx < 32` on code
points). -/
def idxOk (r : Char) : Bool :=
  decide ('a'.toNat ≤ r.toNat) && decide (r.toNat - 'a'.toNat < 32)

/-- Method `Keyboard.Valid` (gui.go:1971-1977). -/
def kbdValid (k : Keyboard) (r : Char) : Bool :=
  if r = backspaceChar then decide (0 < k.word.length)
  else idxOk r && !(k.maskInvalid r)

/-- Method `Keyboard.rune` (gui.go:2038-2050); the highlight adjustment
`k.adjust` moves only the omitted geometry fields. -/
def kbdRune (wl : List BWord) (k : Keyboard) (r : Char) : Keyboard :=
  if !(kbdValid k r) then k
  else if r = backspaceChar then updateMask wl { k with word := k.word.dropLast }
  else updateMask wl { k with word := k.word ++ [r] }

/-- Method `Keyboard.Clear` (gui.go:1926-1932), geometry omitted. -/
def kbdClear (wl : List BWord) (k : Keyboard) : Keyboard :=
  updateMask wl { k with word := [] }

/-- Function `NewKeyboard` (gui.go:1874-1914) restricted to the modelled
fields: a cleared keyboard. -/
def kbdNew (wl : List BWord) : Keyboard := kbdClear wl {}

/-- The canonical keyboard state showing the typed prefix `p`. -/
def kbdState (wl : List BWord) (p : BWord) : Keyboard :=
  updateMask wl { word := p }

/-- Method `Keyboard.Complete` (gui.go:1916-1924): look up the closest
wordlist word; the typed prefix is complete when it is the only completion
(`nvalid == 1`) or it equals that word. -/
def kbdComplete (wl : List BWord) (k : Keyboard) : Option BWord × Bool :=
  match (closestTail wl k.word).head? with
  | none => (none, false)
  | some w => (some w, (k.nvalid == 1) || (k.word == w))

/-- Enter the letters of `w` on a fresh keyboard, as
`TestWordKeyboardcreen` does through rune events. -/
def typeWord (wl : List BWord) (w : BWord) : Keyboard :=
  w.foldl (kbdRune wl) (kbdNew wl)

/-! ### The app frame loop, idle timer and input eating (`App.Frame`,
gui.go:2602-2694) -/

/-- The `App` fields driving the idle/screensaver logic (gui.go:2602-2618):
`idle.eatButton`, whether the idle timer is armed (`idle.timeout != nil`),
and the input context. -/
structure AppM where
  eatButton : Bool := false
  idleArmed : Bool := false
  ctx : Ctx := {}
deriving Repr, DecidableEq

/-- The wake source selected at the top of `App.Frame` (gui.go:2638-2648). -/
inductive Wake where
  | sdcard (inserted : Bool)
  | wakeup
  | idle
deriving Repr, DecidableEq

/-- The button-drain loop of `App.Frame` (gui.go:2650-2666): a screenshot
event sets the screenshot flag; otherwise, when `eatButton` is set the event
is consumed without being delivered and the flag cleared; otherwise the
event goes through `Context.Events`.  Returns the eat flag, the context and
the screenshot flag. -/
def drainButtons (now : Int) : Bool → Ctx → List RawEvent → Bool × Ctx × Bool
  | eat, ctx, [] => (eat, ctx, false)
  | eat, ctx, e :: rest =>
    if e.button = screenshotButton then
      let r := drainButtons now eat ctx rest
      (r.1, r.2.1, true)
    else if eat then drainButtons now false ctx rest
    else drainButtons now eat (ctxEvent now ctx e) rest

/-- Method `App.Frame` (gui.go:2637-2694): an idle-timer firing runs the
screensaver and sets `eatButton`; queued input is drained; repeats are
synthesized; the idle timer is re-armed exactly when no button is pressed.
Rendering, the screenshot dump and the NoSDCard flag update are omitted.
Returns the new state, whether the screensaver ran, and whether a
screenshot was requested. -/
def appFrame (now : Int) (w : Wake) (btns : List RawEvent) (a : AppM) :
    AppM × Bool × Bool :=
  let saver := match w with | .idle => true | _ => false
  let eat0 := match w with | .idle => true | _ => a.eatButton
  let d := drainButtons now eat0 a.ctx btns
  let ctx := ctxRepeat now d.2.1
  let pressed := ctx.buttons.any id
  ({ eatButton := d.1, idleArmed := !pressed, ctx := ctx }, saver, d.2.2)

/-- An engrave session state captured mid-engrave: connected device and
worker channels present (the state after `moveStep` reached an engrave
instruction). -/
def engravingState : EngraveState where
  dev := some 0
  cancel := true
  progressCh := true
  errsCh := true

/-- An engrave session state right after a successful connect, before any
engrave worker exists. -/
def connectedState : EngraveState where
  dev := some 0

/-- An `EngraveScreen` in the middle of engraving side B. -/
def engravingScreen : EngraveScreenM where
  instructions := engraveSideB
  step := 3
  engrave := engravingState

/-- An `EngraveScreen` sitting on the connect instruction of side B. -/
def connectScreen : EngraveScreenM where
  instructions := engraveSideB
  step := 2

/-- A descriptor listing the same key twice, with both keys on the
derivation path `[0]`. -/
def dupDesc : OutputDesc where
  threshold := 2
  keys :=
    [ { xpub := "A", fingerprint := 1, derivation := [0] },
      { xpub := "A", fingerprint := 1, derivation := [0] } ]

/-- A well-formed two-key descriptor on the standard path `[0]`. -/
def goodDesc : OutputDesc where
  threshold := 2
  keys :=
    [ { xpub := "A", fingerprint := 1, derivation := [0] },
      { xpub := "B", fingerprint := 2, derivation := [0] } ]

/-- Pairwise distinctness of the keys' canonical public representations. -/
def distinctKeys (ks : List KeyDesc) : Prop :=
  ks.Pairwise fun a b => a.xpub ≠ b.xpub

/-- A sorted word list, as `bip39.Wordlist` is. -/
def wlSorted (wl : List BWord) : Prop :=
  List.Pairwise (fun a b => lexLt a b = true) wl

/-- A three-word sorted lowercase word list for concrete evaluation. -/
def wl3 : List BWord :=
  ["abandon".toList, "ability".toList, "zoo".toList]

/-! ## Theorems -/

/-- C1: evaluation of the cancel-teardown path at the failing inputs.  After
a hold-to-confirm cancel, `EngraveScreen.close` ends the session (the
engrave state is reset), and its teardown goroutine closes the cancel
channel and waits a bounded 5 s on the worker — but its body never closes
the device handle.  The device therefore gets closed only when the worker
itself acknowledges (`mjolnir.Engrave` returns and the worker runs
`dev.Close()`, gui.go:1078-1079): with a worker that never acknowledges, and
likewise when cancelling between a successful connect and the engrave
instruction (no worker at all), the handle is never closed — contradicting
the claim that teardown force-closes it after the grace period. -/
theorem cancel_teardown_never_force_closes_device :
    devClosedAfterCancel engravingState false = false
    ∧ devClosedAfterCancel connectedState true = false
    ∧ devClosedAfterCancel engravingState true = true
    ∧ (engraveClose engravingScreen).1.engrave = ({} : EngraveState)
    ∧ (closeTeardown engravingState).closesDev = false := by
  exact ⟨rfl, rfl, rfl, rfl, rfl⟩

/-- C7 counterexample: `Start` with a duration of 2000 ms (twice the global
`confirmDelay`), queried at the arming time 0, yields Progress −1 — not the
claimed linear interpolation between arming time and deadline, which is 0
there — because `Progress` divides by the constant `confirmDelay` rather
than the duration passed to `Start`. -/
theorem progress_other_duration_counterexample :
    cdProgress 0 (cdStart 0 2000) = -1
    ∧ specProgressContract true 0 (cdStart 0 2000) 0 = 0
    ∧ cdProgress 0 (cdStart 0 2000) ≠ specProgressContract true 0 (cdStart 0 2000) 0 := by
  refine ⟨?_, ?_, ?_⟩ <;>
    norm_num [cdProgress, cdStart, cdRunning, confirmDelayMs, specProgressContract]

/-- C7 amended: when the duration passed to `Start` is the fixed
`confirmDelay` — as at every call site — `Progress` is 0 when not armed and
otherwise agrees exactly with the linear interpolation between the arming
time and the deadline, reaching 1 exactly at the deadline; for other
durations the interpolation claim fails (see the counterexample). -/
theorem progress_confirm_delay_linear (now0 now : Int) (h0 : 0 ≤ now0) :
    cdProgress now (cdStart now0 confirmDelayMs)
      = specProgressContract true now0 (now0 + confirmDelayMs) now
    ∧ cdProgress now 0 = 0
    ∧ cdProgress (now0 + confirmDelayMs) (cdStart now0 confirmDelayMs) = 1 := by
  have hrun : cdRunning (cdStart now0 confirmDelayMs) = true := by
    simp only [cdRunning, cdStart, confirmDelayMs, ne_eq, decide_eq_true_eq]
    omega
  refine ⟨?_, by simp [cdProgress, cdRunning], ?_⟩
  · by_cases hle : now0 + confirmDelayMs ≤ now
    · have hd : cdStart now0 confirmDelayMs - now ≤ 0 := by
        simp only [cdStart, confirmDelayMs] at *; omega
      simp [cdProgress, hrun, specProgressContract, hle, hd]
    · have hd : ¬ (cdStart now0 confirmDelayMs - now ≤ 0) := by
        simp only [cdStart, confirmDelayMs] at *; omega
      have harm : now0 + confirmDelayMs - now0 = confirmDelayMs := by omega
      simp only [cdProgress, hrun, Bool.not_true, specProgressContract, hle,
        if_false, ite_false, harm]
      rw [if_neg (by simp), if_neg hd, if_neg (by simp)]
      have hsub : cdStart now0 confirmDelayMs - now = now0 + confirmDelayMs - now := by
        simp [cdStart]
      rw [hsub]
      have hq : ((confirmDelayMs : Int) : ℚ) ≠ 0 := by
        simp [confirmDelayMs]
      field_simp
      ring
  · have hd : cdStart now0 confirmDelayMs - (now0 + confirmDelayMs) ≤ 0 := by
      simp only [cdStart]; omega
    simp [cdProgress, hrun, hd]

/-- Concrete instantiation of `progress_confirm_delay_linear`: armed at 0
with the 1 s confirm delay and queried at 500 ms. -/
theorem progress_confirm_delay_linear_witness :
    cdProgress 500 (cdStart 0 confirmDelayMs)
      = specProgressContract true 0 (0 + confirmDelayMs) 500
    ∧ cdProgress 500 0 = 0
    ∧ cdProgress (0 + confirmDelayMs) (cdStart 0 confirmDelayMs) = 1 :=
  progress_confirm_delay_linear 0 500 (by norm_num)

/-- Helper: from an in-range step, the advance half of `moveStep` always
succeeds, keeps the instruction list, increments the cursor, preserves an
absent warning, and its boolean result is exactly "the new cursor is past
the last instruction". -/
theorem moveStepCore_spec (s : EngraveScreenM)
    (h : s.step < s.instructions.length) :
    ∃ s' d, moveStepCore s = some (s', d)
      ∧ s'.instructions = s.instructions ∧ s'.step = s.step + 1
      ∧ (d = true ↔ s.step + 1 = s.instructions.length)
      ∧ (s.engrave.warning = none → s'.engrave.warning = none) := by
  by_cases hl : s.step + 1 = s.instructions.length
  · have hm : moveStepCore s = some ({ s with step := s.step + 1, engrave := {} }, true) := by
      simp [moveStepCore, hl, engraveClose]
    exact ⟨_, _, hm, rfl, rfl, by simp [hl], fun _ => rfl⟩
  · have hlt : s.step + 1 < s.instructions.length := by omega
    cases hg : s.instructions[s.step + 1]? with
    | none =>
      exact absurd (List.getElem?_eq_none_iff.mp hg) (by omega)
    | some ins =>
      by_cases he : ins.type = .engrave
      · have hm : moveStepCore s = some ({ s with step := s.step + 1, engrave := { s.engrave with cancel := true, errsCh := true, progressCh := true } }, false) := by
          simp [moveStepCore, hl, hg, he]
        exact ⟨_, _, hm, rfl, rfl, by simp [hl], fun hw => by simp [hw]⟩
      · have hm : moveStepCore s = some ({ s with step := s.step + 1 }, false) := by
          simp [moveStepCore, hl, hg, he]
        exact ⟨_, _, hm, rfl, rfl, by simp [hl], fun hw => hw⟩

/-- C6: when the session sits on a Connect instruction, `moveStep` is a
no-op when a device handle already exists; a failed open sets the non-fatal
"Connection Error" warning and stays on the same step (so the same hold
gesture can retry); a successful open advances the cursor by one; and the
cursor moves only when the handle was absent and the open succeeded. -/
theorem connect_step_retry (engraver : Option Nat) (s : EngraveScreenM)
    (ins : Instr) (hins : s.instructions.get? s.step = some ins)
    (hc : ins.type = .connect) :
    (s.engrave.dev.isSome = true → moveStep engraver s = some (s, false))
    ∧ (s.engrave.dev = none → engraver = none →
        moveStep engraver s
          = some ({ s with engrave := { warning := some connectionErrorWarning } },
              false))
    ∧ (∀ d, s.engrave.dev = none → engraver = some d →
        ∃ s' r, moveStep engraver s = some (s', r) ∧ s'.step = s.step + 1
          ∧ s'.instructions = s.instructions ∧ s'.engrave.warning = none)
    ∧ (∀ s' r, moveStep engraver s = some (s', r) → s'.step ≠ s.step →
        s.engrave.dev = none ∧ engraver.isSome = true) := by
  have hstep : s.step < s.instructions.length := (List.get?_eq_some.mp hins).1
  have hins' : s.instructions[s.step]? = some ins := by
    simpa [← List.get?_eq_getElem?] using hins
  refine ⟨?_, ?_, ?_, ?_⟩
  · intro hdev
    simp [moveStep, hins', hc, hdev]
  · intro hdev heng
    simp [moveStep, hins', hc, hdev, heng]
  · intro d hdev heng
    obtain ⟨s', r, hm, hinstr, hstep', hdone, hwarn⟩ :=
      moveStepCore_spec { s with engrave := { dev := some d } } (by simpa using hstep)
    refine ⟨s', r, ?_, by simpa using hstep', by simpa using hinstr, hwarn rfl⟩
    have hrw : moveStep engraver s
        = moveStepCore { s with engrave := { dev := some d } } := by
      simp [moveStep, hins', hc, hdev, heng]
    rw [hrw]
    exact hm
  · intro s' r hm hne
    cases hdev : s.engrave.dev with
    | some d =>
      simp [moveStep, hins', hc, hdev] at hm
      exact absurd (by rw [← hm.1]) hne
    | none =>
      cases heng : engraver with
      | none =>
        simp [moveStep, hins', hc, hdev, heng] at hm
        exact absurd (by rw [← hm.1]) hne
      | some d => exact ⟨rfl, rfl⟩

/-- Concrete instantiation of `connect_step_retry`: a failed open on the
connect step of side B keeps the cursor on step 2 and records the
connection warning. -/
theorem connect_step_retry_witness :
    moveStep none connectScreen
      = some ({ connectScreen with
          engrave := { warning := some connectionErrorWarning } }, false) :=
  (connect_step_retry none connectScreen { type := .connect } rfl rfl).2.1 rfl rfl

/-- Helper: from an in-range step, any successful `moveStep` keeps the
instruction list, moves the cursor by at most one, and returns `true`
exactly when the new cursor sits past the last instruction. -/
theorem moveStep_spec (engraver : Option Nat) (s : EngraveScreenM)
    (h : s.step < s.instructions.length) :
    ∀ s' d, moveStep engraver s = some (s', d) →
      s'.instructions = s.instructions
        ∧ (s'.step = s.step ∨ s'.step = s.step + 1)
        ∧ (d = true ↔ s'.step = s.instructions.length) := by
  intro s' d hm
  have hsome : s.instructions[s.step]? = some s.instructions[s.step] :=
    List.getElem?_eq_getElem h
  by_cases hc : s.instructions[s.step].type = .connect
  · cases hdev : s.engrave.dev with
    | some dv =>
      have hdev' : s.engrave.dev.isSome = true := by simp [hdev]
      simp [moveStep, hsome, hc, hdev'] at hm
      obtain ⟨rfl, rfl⟩ := hm
      refine ⟨rfl, Or.inl rfl, ?_⟩
      simp only [Bool.false_eq_true, false_iff]
      omega
    | none =>
      cases heng : engraver with
      | none =>
        simp [moveStep, hsome, hc, hdev, heng] at hm
        obtain ⟨rfl, rfl⟩ := hm
        refine ⟨rfl, Or.inl rfl, ?_⟩
        simp only [Bool.false_eq_true, false_iff]
        omega
      | some dv =>
        have hrw : moveStep engraver s
            = moveStepCore { s with engrave := { dev := some dv } } := by
          simp [moveStep, hsome, hc, hdev, heng]
        rw [hrw] at hm
        obtain ⟨s'', d'', hm', hinstr, hstep', hdone, _⟩ :=
          moveStepCore_spec { s with engrave := { dev := some dv } }
            (by simpa using h)
        rw [hm'] at hm
        injection hm with hm2
        injection hm2 with hseq hdeq
        refine ⟨?_, Or.inr ?_, ?_⟩
        · rw [← hseq]; exact hinstr
        · rw [← hseq]; exact hstep'
        · rw [← hseq, ← hdeq, hstep']; exact hdone
  · have hrw : moveStep engraver s = moveStepCore s := by
      simp [moveStep, hsome, hc]
    rw [hrw] at hm
    obtain ⟨s'', d'', hm', hinstr, hstep', hdone, _⟩ := moveStepCore_spec s h
    rw [hm'] at hm
    injection hm with hm2
    injection hm2 with hseq hdeq
    refine ⟨?_, Or.inr ?_, ?_⟩
    · rw [← hseq]; exact hinstr
    · rw [← hseq]; exact hstep'
    · rw [← hseq, ← hdeq, hstep']; exact hdone

/-- Helper: the instruction lists built by `NewEngraveScreen` all end in the
final preparation instruction of `EngraveSuccess`. -/
theorem newEngraveInstructions_getLast (calibrated : Bool) (nsides : Nat) :
    (newEngraveInstructions calibrated nsides).getLast?
      = some { type := .prepare, side := 0 } := by
  cases calibrated <;> by_cases h2 : 1 < nsides <;>
    simp [newEngraveInstructions, h2, engraveFirstSideA, engraveSideA,
      engraveSideB, engraveSuccess, List.getLast?_append]

/-- C9: the step cursor stays a valid index.  From `0 ≤ step < len`: a
`moveStep` that continues (`false`) leaves the cursor in range and one that
ends the session (`true`) leaves it exactly at the list length; the
worker-success advance (`workerResult`) behaves the same way; stepping back
(`backStep`) stays in range; and in every instruction list built by
`NewEngraveScreen` a Connect instruction is never last, so the progress-fire
advance at a connect step cannot leave the cursor at the length without the
screen being discarded. -/
theorem step_cursor_in_bounds (engraver : Option Nat) (err : Bool)
    (s : EngraveScreenM) (h : s.step < s.instructions.length) :
    (∀ s' d, moveStep engraver s = some (s', d) →
        s'.instructions = s.instructions
          ∧ (d = false → s'.step < s'.instructions.length)
          ∧ (d = true → s'.step = s'.instructions.length))
    ∧ (workerResult err s).1.instructions = s.instructions
    ∧ ((workerResult err s).2 = false →
        (workerResult err s).1.step < s.instructions.length)
    ∧ ((workerResult err s).2 = true →
        (workerResult err s).1.step = s.instructions.length)
    ∧ (backStep s).instructions = s.instructions
    ∧ (backStep s).step < s.instructions.length
    ∧ (∀ calibrated nsides i ins,
        (newEngraveInstructions calibrated nsides).get? i = some ins →
        ins.type = .connect →
        i + 1 < (newEngraveInstructions calibrated nsides).length) := by
  refine ⟨?_, ?_, ?_, ?_, ?_, ?_, ?_⟩
  · intro s' d hm
    obtain ⟨hinstr, hstep, hdone⟩ := moveStep_spec engraver s h s' d hm
    refine ⟨hinstr, ?_, ?_⟩
    · intro hd
      rw [hinstr]
      rcases hstep with he | he <;> rw [he]
      · exact h
      · rcases Nat.lt_or_ge (s.step + 1) s.instructions.length with hlt | hge
        · exact hlt
        · have : s.step + 1 = s.instructions.length := by omega
          rw [← he] at this
          exact absurd (hdone.mpr this) (by simp [hd])
    · intro hd
      rw [hinstr]
      exact hdone.mp hd
  · cases err <;> simp [workerResult]
  · cases err <;> simp [workerResult] <;> omega
  · cases err <;> simp [workerResult]
  · unfold backStep
    by_cases hp : canPrev s = true <;> simp [hp]
  · unfold backStep
    by_cases hp : canPrev s = true <;> simp [hp] <;> omega
  · intro calibrated nsides i ins hget htype
    have hi : i < (newEngraveInstructions calibrated nsides).length :=
      (List.get?_eq_some.mp hget).1
    by_contra hcon
    have hlast : i = (newEngraveInstructions calibrated nsides).length - 1 := by
      omega
    have : (newEngraveInstructions calibrated nsides).getLast? = some ins := by
      rw [List.getLast?_eq_get?, ← hlast]
      exact hget
    rw [newEngraveInstructions_getLast] at this
    have : ins = { type := .prepare, side := 0 } := by
      exact (Option.some_inj.mp this).symm
    rw [this] at htype
    exact absurd htype (by simp)

/-- Concrete instantiation of `step_cursor_in_bounds` at the engraving
screen on side B: the worker-success advance lands on the in-range success
step, and stepping back stays in range. -/
theorem step_cursor_in_bounds_witness :
    (workerResult false engravingScreen).1.instructions
        = engravingScreen.instructions
    ∧ (backStep engravingScreen).step < engravingScreen.instructions.length :=
  ⟨(step_cursor_in_bounds none false engravingScreen (by decide)).2.1,
    (step_cursor_in_bounds none false engravingScreen (by decide)).2.2.2.2.2.1⟩

/-- C2 counterexample: a descriptor that lists the same key twice but whose
keys sit on a non-standard derivation path is rejected with the
non-standard-derivation error, not the duplicate-key error the claim
demands for every descriptor with two identical keys — the per-key checks
run in order and the first key's path check fires before the second key's
duplicate check. -/
theorem validate_duplicate_nonstandard_counterexample :
    dupDesc.keys.map KeyDesc.xpub = ["A", "A"]
    ∧ validateDescriptor [1] true true dupDesc
        = some (.nonstandardDerivation [0]) := by
  exact ⟨rfl, rfl⟩

/-- Helper: the per-key loop succeeds exactly when no key repeats an xpub
already seen or appearing earlier, and every key sits on the non-empty
expected path. -/
theorem checkKeys_eq_none_iff (expPath : List Nat) (seen : List String)
    (ks : List KeyDesc) :
    checkKeys expPath seen ks = none ↔
      ((∀ k ∈ ks, k.xpub ∉ seen ∧ expPath ≠ [] ∧ k.derivation = expPath)
        ∧ distinctKeys ks) := by
  induction ks generalizing seen with
  | nil => simp [checkKeys, distinctKeys]
  | cons k ks ih =>
    by_cases hdup : k.xpub ∈ seen
    · simp [checkKeys, hdup, distinctKeys]
    · by_cases hexp : expPath = []
      · have hck : checkKeys expPath seen (k :: ks)
            = some (.nonstandardDerivation k.derivation) := by
          simp [checkKeys, hdup, hexp]
        rw [hck]
        refine iff_of_false (by simp) ?_
        rintro ⟨h1, _⟩
        exact (h1 k (List.mem_cons_self k ks)).2.1 hexp
      · by_cases hder : k.derivation = expPath
        · have hstep : checkKeys expPath seen (k :: ks)
              = checkKeys expPath (k.xpub :: seen) ks := by
            simp [checkKeys, hdup, hexp, hder, List.length_eq_zero]
          rw [hstep, ih]
          constructor
          · rintro ⟨h1, h2⟩
            refine ⟨?_, ?_⟩
            · intro k' hk'
              rcases List.mem_cons.mp hk' with rfl | hk'
              · exact ⟨hdup, hexp, hder⟩
              · obtain ⟨hmem, hrest⟩ := h1 k' hk'
                exact ⟨fun hin => hmem (List.mem_cons_of_mem _ hin), hrest⟩
            · rw [distinctKeys, List.pairwise_cons]
              refine ⟨?_, h2⟩
              intro k' hk' heq
              exact (h1 k' hk').1 (by rw [← heq]; exact List.mem_cons_self _ _)
          · rintro ⟨h1, h2⟩
            rw [distinctKeys, List.pairwise_cons] at h2
            refine ⟨?_, h2.2⟩
            intro k' hk'
            obtain ⟨hmem, hrest⟩ := h1 k' (List.mem_cons_of_mem _ hk')
            refine ⟨?_, hrest⟩
            intro hin
            rcases List.mem_cons.mp hin with heq | hin'
            · exact h2.1 k' hk' heq.symm
            · exact hmem hin'
        · have hck : checkKeys expPath seen (k :: ks)
              = some (.nonstandardDerivation k.derivation) := by
            simp [checkKeys, hdup, hexp, hder]
          rw [hck]
          refine iff_of_false (by simp) ?_
          rintro ⟨h1, _⟩
          exact hder (h1 k (List.mem_cons_self k ks)).2.2

/-- Helper: when every key sits on the standard path, the per-key loop can
only succeed or report a duplicate key. -/
theorem checkKeys_standard_result (expPath : List Nat) (seen : List String)
    (ks : List KeyDesc)
    (hstd : ∀ k ∈ ks, expPath ≠ [] ∧ k.derivation = expPath) :
    checkKeys expPath seen ks = none
      ∨ ∃ fp, checkKeys expPath seen ks = some (.duplicateKey fp) := by
  induction ks generalizing seen with
  | nil => exact Or.inl rfl
  | cons k ks ih =>
    obtain ⟨hexp, hder⟩ := hstd k (List.mem_cons_self k ks)
    by_cases hdup : k.xpub ∈ seen
    · refine Or.inr ⟨k.fingerprint, ?_⟩
      simp [checkKeys, hdup]
    · have hstep : checkKeys expPath seen (k :: ks)
          = checkKeys expPath (k.xpub :: seen) ks := by
        simp [checkKeys, hdup, hexp, hder, List.length_eq_zero]
      rw [hstep]
      exact ih (k.xpub :: seen) fun k' hk' => hstd k' (List.mem_cons_of_mem k hk')

/-- Helper: with pairwise-distinct keys none of which was seen before, a key
off the standard path makes the per-key loop report the non-standard
derivation error. -/
theorem checkKeys_nonstandard_result (expPath : List Nat) (seen : List String)
    (ks : List KeyDesc)
    (hseen : ∀ k ∈ ks, k.xpub ∉ seen)
    (hpw : distinctKeys ks)
    (hbad : ∃ k ∈ ks, expPath = [] ∨ k.derivation ≠ expPath) :
    ∃ p, checkKeys expPath seen ks = some (.nonstandardDerivation p) := by
  induction ks generalizing seen with
  | nil => simp at hbad
  | cons k ks ih =>
    have hdup : k.xpub ∉ seen := hseen k (List.mem_cons_self k ks)
    by_cases hexp : expPath = []
    · refine ⟨k.derivation, ?_⟩
      simp [checkKeys, hdup, hexp]
    · by_cases hder : k.derivation = expPath
      · have hstep : checkKeys expPath seen (k :: ks)
            = checkKeys expPath (k.xpub :: seen) ks := by
          simp [checkKeys, hdup, hexp, hder, List.length_eq_zero]
        rw [hstep]
        rw [distinctKeys, List.pairwise_cons] at hpw
        rcases hbad with ⟨kb, hkb, hb⟩
        rcases List.mem_cons.mp hkb with hkb' | hkb'
        · subst hkb'
          rcases hb with hb | hb
          · exact absurd hb hexp
          · exact absurd hder hb
        · refine ih (k.xpub :: seen) ?_ hpw.2 ⟨kb, hkb', hb⟩
          intro k' hk'
          simp only [List.mem_cons, not_or]
          exact ⟨fun heq => hpw.1 k' hk' heq.symm,
            hseen k' (List.mem_cons_of_mem k hk')⟩
      · refine ⟨k.derivation, ?_⟩
        simp [checkKeys, hdup, hexp, hder]

/-- C2 amended: `validateDescriptor` runs its checks sequentially — for each
key in order the duplicate check precedes the path check, and only then the
trial engrave and the recoverability check run.  It returns nil exactly when
all checks pass; a duplicate key is reported whenever one exists and every
key is on the standard path; a non-standard path is reported whenever one
exists (or no standard path is defined) and no key repeats; the too-large
error is reported when the per-key checks pass and the trial engrave fits no
plate; and the Button3 confirmation gate opens seed entry exactly on nil,
otherwise it opens the dialog describing the error. -/
theorem validate_descriptor_checks (expPath : List Nat)
    (fits recoverable : Bool) (desc : OutputDesc) :
    (validateDescriptor expPath fits recoverable desc = none ↔
      ((∀ k ∈ desc.keys, expPath ≠ [] ∧ k.derivation = expPath)
        ∧ distinctKeys desc.keys ∧ fits = true ∧ recoverable = true))
    ∧ ((∀ k ∈ desc.keys, expPath ≠ [] ∧ k.derivation = expPath) →
        ¬ distinctKeys desc.keys →
        ∃ fp, validateDescriptor expPath fits recoverable desc
          = some (.duplicateKey fp))
    ∧ (distinctKeys desc.keys →
        (∃ k ∈ desc.keys, expPath = [] ∨ k.derivation ≠ expPath) →
        ∃ p, validateDescriptor expPath fits recoverable desc
          = some (.nonstandardDerivation p))
    ∧ ((∀ k ∈ desc.keys, expPath ≠ [] ∧ k.derivation = expPath) →
        distinctKeys desc.keys → fits = false →
        validateDescriptor expPath fits recoverable desc
          = some .descriptorTooLarge)
    ∧ (∀ v, (descriptorConfirm v).2 = true ↔ v = none)
    ∧ (∀ e, descriptorConfirm (some e) = (some (newErrorScreen e), false)) := by
  have hnil : ∀ k : KeyDesc, k.xpub ∉ ([] : List String) := fun k =>
    List.not_mem_nil _
  refine ⟨?_, ?_, ?_, ?_, ?_, ?_⟩
  · rw [validateDescriptor]
    cases hck : checkKeys expPath [] desc.keys with
    | some e =>
      refine iff_of_false (by simp) ?_
      rintro ⟨hall, hpw, _, _⟩
      have hnone : checkKeys expPath [] desc.keys = none := by
        rw [checkKeys_eq_none_iff]
        exact ⟨fun k hk => ⟨hnil k, hall k hk⟩, hpw⟩
      rw [hck] at hnone
      exact Option.noConfusion hnone
    | none =>
      rw [checkKeys_eq_none_iff] at hck
      obtain ⟨hall, hpw⟩ := hck
      cases fits with
      | false =>
        refine iff_of_false (by simp [trialEngrave]) ?_
        rintro ⟨_, _, hf, _⟩
        exact Bool.noConfusion hf
      | true =>
        cases recoverable with
        | false =>
          refine iff_of_false (by simp [trialEngrave]) ?_
          rintro ⟨_, _, _, hr⟩
          exact Bool.noConfusion hr
        | true =>
          refine iff_of_true (by simp [trialEngrave]) ?_
          exact ⟨fun k hk => (hall k hk).2, hpw, rfl, rfl⟩
  · intro hstd hndup
    rcases checkKeys_standard_result expPath [] desc.keys hstd with hck | ⟨fp, hck⟩
    · rw [checkKeys_eq_none_iff] at hck
      exact absurd hck.2 hndup
    · exact ⟨fp, by rw [validateDescriptor, hck]⟩
  · intro hpw hbad
    obtain ⟨p, hck⟩ := checkKeys_nonstandard_result expPath [] desc.keys
      (fun k _ => hnil k) hpw hbad
    exact ⟨p, by rw [validateDescriptor, hck]⟩
  · intro hstd hpw hfits
    have hck : checkKeys expPath [] desc.keys = none := by
      rw [checkKeys_eq_none_iff]
      exact ⟨fun k hk => ⟨hnil k, hstd k hk⟩, hpw⟩
    rw [validateDescriptor, hck, hfits]
    rfl
  · intro v
    cases v <;> simp [descriptorConfirm]
  · intro e
    rfl

/-- Concrete instantiation of `validate_descriptor_checks`: the well-formed
two-key descriptor validates to nil, the duplicate-key descriptor is
rejected as duplicated, and with a trial engrave that fits no plate the
well-formed one is rejected as too large. -/
theorem validate_descriptor_checks_witness :
    validateDescriptor [0] true true goodDesc = none
    ∧ (∃ fp, validateDescriptor [0] true true dupDesc
        = some (.duplicateKey fp))
    ∧ validateDescriptor [0] false true goodDesc = some .descriptorTooLarge :=
  ⟨(validate_descriptor_checks [0] true true goodDesc).1.mpr
      ⟨by decide, by constructor <;> simp [goodDesc], rfl, rfl⟩,
    (validate_descriptor_checks [0] true true dupDesc).2.1 (by decide)
      (by simp [distinctKeys, dupDesc]),
    (validate_descriptor_checks [0] false true goodDesc).2.2.2.1 (by decide)
      (by constructor <;> simp [goodDesc]) rfl⟩

/-- Helper: submitting one event never changes the length of the
button-state array. -/
theorem ctxEvent_buttons_length (now : Int) (c : Ctx) (e : RawEvent) :
    (ctxEvent now c e).buttons.length = c.buttons.length := by
  unfold ctxEvent
  by_cases h : e.button < c.buttons.length <;> simp [h]

/-- Helper: submitting one event appends exactly one queue entry carrying
the event's button. -/
theorem ctxEvent_events (now : Int) (c : Ctx) (e : RawEvent) :
    ∃ ev : Event, (ctxEvent now c e).events = c.events ++ [ev]
      ∧ ev.button = e.button := by
  unfold ctxEvent
  by_cases h : e.button < c.buttons.length
  · refine ⟨{ button := e.button, pressed := e.pressed, rune := e.rune, click := !e.pressed && c.buttons.getD e.button false }, ?_, rfl⟩
    simp [h]
  · refine ⟨{ button := e.button, pressed := e.pressed, rune := e.rune }, ?_, rfl⟩
    simp [h]

/-- Helper: submitting an event of another button leaves button `b`'s state
flag unchanged. -/
theorem ctxEvent_buttons_other (now : Int) (c : Ctx) (e : RawEvent) (b : Nat)
    (h : e.button ≠ b) :
    (ctxEvent now c e).buttons.getD b false = c.buttons.getD b false := by
  unfold ctxEvent
  by_cases hlt : e.button < c.buttons.length <;>
    simp [hlt, List.getD, List.getElem?_set, h]

/-- Helper: a slice of events none of which concerns button `b` preserves
`b`'s state flag and the array length, and only appends queue entries for
other buttons. -/
theorem ctxEvents_no_b (now : Int) (b : Nat) (mid : List RawEvent)
    (hmid : ∀ e ∈ mid, e.button ≠ b) :
    ∀ c : Ctx,
      (ctxEvents now c mid).buttons.length = c.buttons.length
      ∧ (ctxEvents now c mid).buttons.getD b false = c.buttons.getD b false
      ∧ ∃ extra, (ctxEvents now c mid).events = c.events ++ extra
          ∧ ∀ ev ∈ extra, ev.button ≠ b := by
  induction mid with
  | nil =>
    intro c
    exact ⟨rfl, rfl, [], by simp [ctxEvents], by simp⟩
  | cons e mid ih =>
    intro c
    have he : e.button ≠ b := hmid e (List.mem_cons_self e mid)
    have hmid' : ∀ e' ∈ mid, e'.button ≠ b := fun e' he' =>
      hmid e' (List.mem_cons_of_mem e he')
    obtain ⟨h1, h2, extra, h3, h4⟩ := ih hmid' (ctxEvent now c e)
    obtain ⟨ev, hev, hevb⟩ := ctxEvent_events now c e
    have hstep : ctxEvents now c (e :: mid)
        = ctxEvents now (ctxEvent now c e) mid := by
      simp [ctxEvents]
    refine ⟨?_, ?_, ev :: extra, ?_, ?_⟩
    · rw [hstep, h1, ctxEvent_buttons_length]
    · rw [hstep, h2, ctxEvent_buttons_other now c e b he]
    · rw [hstep, h3, hev]
      simp
    · intro ev' hev'
      rcases List.mem_cons.mp hev' with rfl | hev'
      · rw [hevb]; exact he
      · exact h4 ev' hev'

/-- C4: submitting a press of an in-range button `b` followed by a release
of `b`, with no other `b` event in between, yields the press entry with the
click flag false, in-between entries only for other buttons, and the release
entry with the click flag true — exactly one click-flagged event for `b`. -/
theorem press_release_single_click (now : Int) (c : Ctx) (b : Nat)
    (mid : List RawEvent)
    (hq : c.events = []) (hb : b < c.buttons.length)
    (hmid : ∀ e ∈ mid, e.button ≠ b) :
    ∃ midEvts : List Event,
      (ctxEvents now c ({ button := b, pressed := true }
          :: mid ++ [{ button := b, pressed := false }])).events
        = { button := b, pressed := true, click := false } :: midEvts
            ++ [{ button := b, pressed := false, click := true }]
      ∧ (∀ ev ∈ midEvts, ev.button ≠ b)
      ∧ ((ctxEvents now c ({ button := b, pressed := true }
            :: mid ++ [{ button := b, pressed := false }])).events.filter
          fun ev => ev.button == b && ev.click).length = 1 := by
  set press : RawEvent := { button := b, pressed := true } with hpress
  set rel : RawEvent := { button := b, pressed := false } with hrel
  set c1 := ctxEvent now c press with hc1
  have hc1ev : c1.events
      = [{ button := b, pressed := true, click := false }] := by
    rw [hc1]
    unfold ctxEvent
    simp [hpress, hb, hq]
  have hc1len : c1.buttons.length = c.buttons.length :=
    ctxEvent_buttons_length now c press
  have hc1b : c1.buttons.getD b false = true := by
    rw [hc1]
    unfold ctxEvent
    simp [hpress, hb, List.getD, List.getElem?_set, hb.trans_le (le_refl _)]
  obtain ⟨hmlen, hmb, extra, hmev, hmex⟩ := ctxEvents_no_b now b mid hmid c1
  set c2 := ctxEvents now c1 mid with hc2
  have hsplit : ctxEvents now c (press :: mid ++ [rel])
      = ctxEvent now c2 rel := by
    simp [ctxEvents, List.foldl_append, hc2, hc1]
  have hc2b : c2.buttons.getD b false = true := by rw [hmb, hc1b]
  have hc2len : b < c2.buttons.length := by rw [hmlen, hc1len]; exact hb
  have hc2b2 : c2.buttons[b] = true := by
    have h := hc2b
    rw [List.getD_eq_getElem c2.buttons false hc2len] at h
    exact h
  have hrelev : (ctxEvent now c2 rel).events
      = c2.events ++ [{ button := b, pressed := false, click := true }] := by
    unfold ctxEvent
    simp [hrel, hc2len, hc2b2]
  refine ⟨extra, ?_, hmex, ?_⟩
  · rw [hsplit, hrelev, hmev, hc1ev]
    simp
  · rw [hsplit, hrelev, hmev, hc1ev]
    have hfilter : ∀ ev ∈ extra, ¬ ((ev.button == b && ev.click) = true) := by
      intro ev hev
      have hne := hmex ev hev
      simp [hne]
    rw [List.filter_append, List.filter_append]
    simp only [List.filter_cons, List.filter_nil]
    rw [List.filter_eq_nil_iff.mpr hfilter]
    simp

/-- Concrete instantiation of `press_release_single_click`: Button3 pressed,
an unrelated Up press in between, then Button3 released, starting from the
default context. -/
theorem press_release_single_click_witness :
    ∃ midEvts : List Event,
      (ctxEvents 0 {} ({ button := button3, pressed := true }
          :: [{ button := upButton, pressed := true }]
            ++ [{ button := button3, pressed := false }])).events
        = { button := button3, pressed := true, click := false } :: midEvts
            ++ [{ button := button3, pressed := false, click := true }]
      ∧ (∀ ev ∈ midEvts, ev.button ≠ button3)
      ∧ ((ctxEvents 0 {} ({ button := button3, pressed := true }
            :: [{ button := upButton, pressed := true }]
              ++ [{ button := button3, pressed := false }])).events.filter
          fun ev => ev.button == button3 && ev.click).length = 1 :=
  press_release_single_click 0 {} button3
    [{ button := upButton, pressed := true }] rfl (by decide) (by decide)

/-- Helper: with the eat flag set, the first non-screenshot event is
consumed without delivery and the flag cleared. -/
theorem drainButtons_eats_first (now : Int) (e : RawEvent)
    (rest : List RawEvent) (c : Ctx) (he : e.button ≠ screenshotButton) :
    drainButtons now true c (e :: rest) = drainButtons now false c rest := by
  simp [drainButtons, he]

/-- Helper: with the eat flag clear and no screenshot events queued, the
drain loop delivers every event through Context.Events. -/
theorem drainButtons_delivers (now : Int) (btns : List RawEvent)
    (hs : ∀ e ∈ btns, e.button ≠ screenshotButton) :
    ∀ c : Ctx,
      drainButtons now false c btns = (false, ctxEvents now c btns, false) := by
  induction btns with
  | nil => intro c; simp [drainButtons, ctxEvents]
  | cons e rest ih =>
    intro c
    have he : e.button ≠ screenshotButton := hs e (List.mem_cons_self e rest)
    have hrest : ∀ e' ∈ rest, e'.button ≠ screenshotButton := fun e' he' =>
      hs e' (List.mem_cons_of_mem e he')
    rw [drainButtons, if_neg he, if_neg (by simp)]
    rw [ih hrest (ctxEvent now c e)]
    simp [ctxEvents]

/-- C8: the idle timer is re-armed by a frame exactly when no button is
pressed afterwards; an idle-timer wake runs the screensaver; the first
non-screenshot input event delivered after the screensaver wake is eaten —
the frame's resulting state equals that of an ordinary wake that never saw
the event — and with the eat flag clear all queued events are delivered
through Context.Events as usual. -/
theorem idle_timer_and_input_eating (now : Int) (w : Wake)
    (btns : List RawEvent) (a : AppM) (e1 : RawEvent) (rest : List RawEvent)
    (he1 : e1.button ≠ screenshotButton)
    (hrest : ∀ e ∈ rest, e.button ≠ screenshotButton) :
    ((appFrame now w btns a).1.idleArmed = true ↔
        (appFrame now w btns a).1.ctx.buttons.any id = false)
    ∧ (appFrame now .idle btns a).2.1 = true
    ∧ (appFrame now .idle (e1 :: rest) a).1
        = (appFrame now .wakeup rest { a with eatButton := false }).1
    ∧ (appFrame now .wakeup rest { a with eatButton := false }).1.ctx
        = ctxRepeat now (ctxEvents now a.ctx rest) := by
  refine ⟨?_, rfl, ?_, ?_⟩
  · simp only [appFrame]
    cases h : (ctxRepeat now (drainButtons now
        (match w with | .idle => true | _ => a.eatButton) a.ctx btns).2.1).buttons.any id <;>
      simp [h]
  · simp only [appFrame]
    rw [drainButtons_eats_first now e1 rest a.ctx he1]
  · simp only [appFrame]
    rw [drainButtons_delivers now rest hrest a.ctx]

/-- Concrete instantiation of `idle_timer_and_input_eating`: after an
idle-timer wake, a Button3 press is eaten and a following Up press is
delivered normally. -/
theorem idle_timer_and_input_eating_witness :
    ((appFrame 0 .wakeup [] {}).1.idleArmed = true ↔
        (appFrame 0 .wakeup [] {}).1.ctx.buttons.any id = false)
    ∧ (appFrame 0 .idle [] {}).2.1 = true
    ∧ (appFrame 0 .idle ({ button := button3, pressed := true }
          :: [{ button := upButton, pressed := true }]) {}).1
        = (appFrame 0 .wakeup [{ button := upButton, pressed := true }]
            { ({} : AppM) with eatButton := false }).1
    ∧ (appFrame 0 .wakeup [{ button := upButton, pressed := true }]
          { ({} : AppM) with eatButton := false }).1.ctx
        = ctxRepeat 0 (ctxEvents 0 ({} : AppM).ctx
            [{ button := upButton, pressed := true }]) := by
  have h := idle_timer_and_input_eating 0 .wakeup [] {}
    { button := button3, pressed := true }
    [{ button := upButton, pressed := true }] (by decide) (by decide)
  exact h

/-- Helper: a cleared confirm timer reports progress 0. -/
theorem cdProgress_cleared (now : Int) : cdProgress now 0 = 0 := by
  simp [cdProgress, cdRunning]

/-- Helper: an armed timer reports progress 1 from its deadline on. -/
theorem cdProgress_reached (now t : Int) (ht : t ≠ 0) (hge : t ≤ now) :
    cdProgress now t = 1 := by
  have hrun : cdRunning t = true := by simp [cdRunning, ht]
  have hd : t - now ≤ 0 := by omega
  simp [cdProgress, hrun, hd]

/-- Helper: an armed timer strictly before its deadline reports progress
short of 1. -/
theorem cdProgress_before_deadline (now t : Int) (ht : t ≠ 0)
    (hlt : now < t) : cdProgress now t ≠ 1 := by
  have hrun : cdRunning t = true := by simp [cdRunning, ht]
  have hd : ¬ (t - now ≤ 0) := by omega
  simp only [cdProgress, hrun, Bool.not_true]
  rw [if_neg (by simp), if_neg hd]
  intro heq
  have h0 : ((t - now : Int) : ℚ) / ((confirmDelayMs : Int) : ℚ) = 0 := by
    linarith
  rw [div_eq_zero_iff] at h0
  rcases h0 with h0 | h0
  · have hz : (t - now : Int) = 0 := by exact_mod_cast h0
    omega
  · revert h0
    simp [confirmDelayMs]

/-- C3: the hold-to-confirm gesture.  A Button3 press on the warning screen
clears the button's pressed flag (so a later release is not click-flagged by
Context.Events) and arms the timer; holding to the deadline makes the screen
confirm — and, on the engrave screen's connect hold, run `moveStep` once and
clear the timer so that re-evaluating the fire step is a no-op; releasing
strictly before the deadline clears the timer without confirming, with
progress back at 0. -/
theorem hold_to_confirm_gesture (now now2 t : Int) (ctx : Ctx)
    (s : EngraveScreenM) (engraver : Option Nat) (e : Event) :
    (ctx.events = [{ button := button3, pressed := true }] → 0 ≤ now →
      cwLayout now { confirm := 0 } ctx
        = ({ confirm := now + confirmDelayMs },
            ⟨ctx.buttons.set button3 false, ctx.repeats, []⟩, .cnone))
    ∧ (∀ c2 : Ctx, c2.buttons.getD button3 false = false →
        button3 < c2.buttons.length →
        (ctxEvent now2 c2 { button := button3, pressed := false }).events
          = c2.events
              ++ [{ button := button3, pressed := false, click := false }])
    ∧ (t ≠ 0 → t ≤ now →
        cwLayout now { confirm := t } ctx = ({ confirm := t }, ctx, .cyes))
    ∧ (s.confirm ≠ 0 → s.confirm ≤ now →
        engraveProgressFire now engraver s
          = (moveStep engraver s).map fun r => { r.1 with confirm := 0 })
    ∧ (∀ s', s.confirm ≠ 0 → s.confirm ≤ now →
        engraveProgressFire now engraver s = some s' →
        s'.confirm = 0 ∧ engraveProgressFire now engraver s' = some s')
    ∧ (e.pressed = true → ∀ bs : List Bool,
        engraveConnectButton3 now e s bs
          = ({ s with confirm := now + confirmDelayMs }, bs.set button3 false))
    ∧ (e.pressed = false → ∀ bs : List Bool,
        engraveConnectButton3 now e s bs = ({ s with confirm := 0 }, bs))
    ∧ (t ≠ 0 → now < t → e.button = button3 → e.pressed = false →
        ctx.events = [e] →
        cwLayout now { confirm := t } ctx
          = ({ confirm := 0 }, ⟨ctx.buttons, ctx.repeats, []⟩, .cnone)
          ∧ cdProgress now 0 = 0) := by
  refine ⟨?_, ?_, ?_, ?_, ?_, ?_, ?_, ?_⟩
  · intro hev hnow
    rcases ctx with ⟨bs, rs, evs⟩
    simp only at hev
    subst hev
    have h0 : cdProgress now 0 ≠ 1 := by
      rw [cdProgress_cleared]; norm_num
    have harm : now + confirmDelayMs ≠ 0 := by
      simp only [confirmDelayMs]; omega
    have h1 : cdProgress now (now + confirmDelayMs) ≠ 1 :=
      cdProgress_before_deadline now _ harm (by simp only [confirmDelayMs]; omega)
    simp [cwLayout, cwLoop, h0, h1, cdStart, button1, button3]
  · intro c2 hflag hlen
    have hflag2 : c2.buttons[button3] = false := by
      have h := hflag
      rw [List.getD_eq_getElem c2.buttons false hlen] at h
      exact h
    unfold ctxEvent
    simp [hlen, hflag2]
  · intro ht hge
    have hp := cdProgress_reached now t ht hge
    rcases ctx with ⟨bs, rs, evs⟩
    cases evs <;> simp [cwLayout, cwLoop, hp]
  · intro h1 h2
    have hp := cdProgress_reached now s.confirm h1 h2
    simp [engraveProgressFire, hp]
  · intro s' h1 h2 hfire
    have hp := cdProgress_reached now s.confirm h1 h2
    rw [engraveProgressFire, if_pos hp] at hfire
    cases hmv : moveStep engraver s with
    | none => rw [hmv] at hfire; simp at hfire
    | some r =>
      rw [hmv] at hfire
      simp only [Option.map_some', Option.some_inj] at hfire
      subst hfire
      refine ⟨rfl, ?_⟩
      rw [engraveProgressFire,
        if_neg (by rw [cdProgress_cleared]; norm_num)]
  · intro hp bs
    simp [engraveConnectButton3, hp, cdStart]
  · intro hp bs
    simp [engraveConnectButton3, hp]
  · intro ht hlt hb hp hev
    rcases ctx with ⟨bs, rs, evs⟩
    simp only at hev
    subst hev
    have h1 : cdProgress now t ≠ 1 := cdProgress_before_deadline now t ht hlt
    have hb1 : e.button ≠ button1 := by
      rw [hb]; decide
    have hb31 : button3 ≠ button1 := by decide
    have h0 : cdProgress now 0 ≠ 1 := by
      rw [cdProgress_cleared]; norm_num
    refine ⟨?_, cdProgress_cleared now⟩
    simp [cwLayout, cwLoop, h1, hb1, hb31, hb, hp, h0]

/-- Concrete instantiation of `hold_to_confirm_gesture`: a Button3 press at
time 0 arms the timer for 1000 ms and clears the pressed flag; with the
timer armed at 1000 and the clock at 2000, the warning screen confirms. -/
theorem hold_to_confirm_gesture_witness :
    cwLayout 0 { confirm := 0 }
        ⟨List.replicate nbuttons false, List.replicate nbuttons 0,
          [{ button := button3, pressed := true }]⟩
      = ({ confirm := 0 + confirmDelayMs },
          ⟨(List.replicate nbuttons false).set button3 false,
            List.replicate nbuttons 0, []⟩, .cnone)
    ∧ cwLayout 2000 { confirm := 1000 }
        ⟨List.replicate nbuttons false, List.replicate nbuttons 0, []⟩
      = ({ confirm := 1000 },
          ⟨List.replicate nbuttons false, List.replicate nbuttons 0, []⟩,
          .cyes) :=
  ⟨(hold_to_confirm_gesture 0 0 0
      ⟨List.replicate nbuttons false, List.replicate nbuttons 0,
        [{ button := button3, pressed := true }]⟩
      { instructions := [] } none { button := 0, pressed := false }).1
      rfl (by norm_num),
    (hold_to_confirm_gesture 2000 0 1000
      ⟨List.replicate nbuttons false, List.replicate nbuttons 0, []⟩
      { instructions := [] } none { button := 0, pressed := false }).2.2.1
      (by norm_num) (by norm_num)⟩

/-- Helper: the decoder fed to `Result` by `parseQR` always holds fragments
of a single message — a rejected (incompatible) fragment restarts the
accumulator with just itself, an accepted one matched every accumulated
fragment's message. -/
theorem parseQRDecoder_singleMessage (M : URModel) (d : URDecoder)
    (uqr : List Char) : singleMessage M (parseQRDecoder M d uqr) := by
  unfold parseQRDecoder urAdd
  by_cases hall : d.fragments.all (fun g => M.msgOf g == M.msgOf uqr)
  · simp only [hall, if_pos, if_true]
    intro f hf g hg
    have hmsg : ∀ x ∈ d.fragments ++ [uqr], M.msgOf x = M.msgOf uqr := by
      intro x hx
      rcases List.mem_append.mp hx with hx | hx
      · exact beq_iff_eq.mp (List.all_eq_true.mp hall x hx)
      · rw [List.mem_singleton.mp hx]
    simp only at hf hg
    rw [hmsg f hf, hmsg g hg]
  · simp only [hall, Bool.false_eq_true, if_false]
    intro f hf g hg
    simp only [List.all_nil, if_pos] at hf hg
    rw [List.mem_singleton.mp hf, List.mem_singleton.mp hg]

/-- C5: `parseQR`.  A payload whose uppercased text lacks the "UR:" prefix
is returned immediately as a single complete payload; an incompatible
fragment resets the accumulator and re-adds the same fragment as the start
of a new message; the accumulator coming out of `parseQR` never holds
fragments of two different messages; a completed decode that parses is
returned as the decoded value; and a completed decode whose parse fails is
discarded, leaving the session streaming (`false`). -/
theorem parse_qr_spec (M : URModel)
    (parse : List Char → List Char → Option Nat)
    (d : URDecoder) (qr : List Char) (t p : List Char) (v : Nat) :
    (¬ (urQRPre.isPrefixOf (qr.map Char.toUpper) = true) →
      parseQR M parse d qr = (⟨[]⟩, some (.inl qr), true))
    ∧ ((urAdd M d (qr.map Char.toUpper)).2 = false →
        (parseQRDecoder M d (qr.map Char.toUpper)).fragments
          = [qr.map Char.toUpper])
    ∧ singleMessage M (parseQR M parse d qr).1
    ∧ (urQRPre.isPrefixOf (qr.map Char.toUpper) = true →
        urResult M (parseQRDecoder M d (qr.map Char.toUpper)) = .done t p →
        parse t p = some v →
        parseQR M parse d qr = (⟨[]⟩, some (.inr v), true))
    ∧ (urQRPre.isPrefixOf (qr.map Char.toUpper) = true →
        urResult M (parseQRDecoder M d (qr.map Char.toUpper)) = .done t p →
        parse t p = none →
        parseQR M parse d qr = (⟨[]⟩, none, false)) := by
  refine ⟨?_, ?_, ?_, ?_, ?_⟩
  · intro hur
    simp [parseQR, hur]
  · intro hadd
    unfold parseQRDecoder
    simp only [hadd, Bool.false_eq_true, if_false]
    unfold urAdd
    simp
  · by_cases hur : urQRPre.isPrefixOf (qr.map Char.toUpper)
    · have hsingle := parseQRDecoder_singleMessage M d (qr.map Char.toUpper)
      unfold parseQR
      rw [if_neg (by simpa using hur)]
      cases hres : urResult M (parseQRDecoder M d (qr.map Char.toUpper)) with
      | fail => simp [singleMessage, hres]
      | pending => simpa only [hres] using hsingle
      | done t' p' =>
        cases hp : parse t' p' with
        | none => simp [singleMessage, hres, hp]
        | some v' => simp [singleMessage, hres, hp]
    · unfold parseQR
      rw [if_pos (by simpa using hur)]
      simp [singleMessage]
  · intro hur hres hparse
    unfold parseQR
    rw [if_neg (by simpa using hur)]
    simp only [hres, hparse]
  · intro hur hres hparse
    unfold parseQR
    rw [if_neg (by simpa using hur)]
    simp only [hres, hparse]

/-- A concrete decoder model for the witness: every fragment belongs to
message 0, two accumulated fragments complete into type "T" and payload
"P", and `Result` never errors. -/
def urModelW : URModel where
  msgOf := fun _ => 0
  completed := fun l => if l.length == 2 then some ("T".toList, "P".toList) else none
  resultErr := fun _ => false

/-- Concrete instantiation of `parse_qr_spec`: a non-"UR:" payload is
returned raw, and a second compatible fragment completes the decode into
the parsed value 7. -/
theorem parse_qr_spec_witness :
    parseQR urModelW (fun t _ => if t == "T".toList then some 7 else none)
        ⟨[]⟩ "raw-payload".toList
      = (⟨[]⟩, some (.inl "raw-payload".toList), true)
    ∧ parseQR urModelW (fun t _ => if t == "T".toList then some 7 else none)
        ⟨["UR:XYZ".toList]⟩ "ur:abc".toList
      = (⟨[]⟩, some (.inr 7), true) :=
  ⟨(parse_qr_spec urModelW (fun t _ => if t == "T".toList then some 7 else none)
      ⟨[]⟩ "raw-payload".toList "T".toList "P".toList 7).1 (by decide),
    (parse_qr_spec urModelW (fun t _ => if t == "T".toList then some 7 else none)
      ⟨["UR:XYZ".toList]⟩ "ur:abc".toList "T".toList "P".toList 7).2.2.2.1
      (by decide) (by decide) (by decide)⟩

/-- Helper: no word strictly precedes one of its own extensions in the
lexicographic order. -/
theorem lexLt_append_self (p t : BWord) : lexLt (p ++ t) p = false := by
  induction p with
  | nil => cases t <;> rfl
  | cons a p ih =>
    simp only [List.cons_append, lexLt]
    simp [ih]

/-- Helper: two words sharing the prefix `p` enclose, in the lexicographic
order, only words that also carry the prefix `p`. -/
theorem lex_pre_between (p : BWord) :
    ∀ x y z : BWord, lexLt x y = true → lexLt y z = true →
      p <+: x → p <+: z → p <+: y := by
  induction p with
  | nil => intro x y z _ _ _ _; exact List.nil_prefix
  | cons a p ih =>
    intro x y z hxy hyz hpx hpz
    obtain ⟨tx, hx⟩ := hpx
    obtain ⟨tz, hz⟩ := hpz
    subst hx
    subst hz
    cases y with
    | nil => simp [lexLt] at hxy
    | cons b y' =>
      simp only [List.cons_append, lexLt, Bool.or_eq_true, Bool.and_eq_true,
        decide_eq_true_eq] at hxy hyz
      have hab : a = b := by
        rcases hxy with h | ⟨h, _⟩
        · rcases hyz with h' | ⟨h', _⟩
          · exact absurd (h.trans h') (lt_irrefl a)
          · exact absurd (h'.symm ▸ h) (lt_irrefl a)
        · exact h
      subst hab
      rcases hxy with h | ⟨_, hxy'⟩
      · exact absurd h (lt_irrefl a)
      rcases hyz with h | ⟨_, hyz'⟩
      · exact absurd h (lt_irrefl a)
      obtain ⟨ty, hy⟩ := ih (p ++ tx) y' (p ++ tz) hxy' hyz'
        ⟨tx, rfl⟩ ⟨tz, rfl⟩
      exact ⟨ty, by rw [List.cons_append, hy]⟩

/-- Helper: in a sorted word list the first entry carrying the prefix `p`
is `p` itself whenever `p` is listed. -/
theorem closestTail_head_self (wl : List BWord) (p : BWord)
    (hsort : wlSorted wl) (hmem : p ∈ wl) :
    (closestTail wl p).head? = some p := by
  induction wl with
  | nil => cases hmem
  | cons x xs ih =>
    rw [wlSorted, List.pairwise_cons] at hsort
    by_cases hpre : p.isPrefixOf x
    · have hx : closestTail (x :: xs) p = x :: xs := by
        simp [closestTail, List.dropWhile_cons, hpre]
      rw [hx]
      rcases List.mem_cons.mp hmem with rfl | hmem'
      · rfl
      · obtain ⟨t, ht⟩ := List.isPrefixOf_iff_prefix.mp hpre
        have hlt := hsort.1 p hmem'
        rw [← ht, lexLt_append_self] at hlt
        exact Bool.noConfusion hlt
    · have hx : closestTail (x :: xs) p = closestTail xs p := by
        simp [closestTail, List.dropWhile_cons, hpre]
      rw [hx]
      rcases List.mem_cons.mp hmem with rfl | hmem'
      · exact absurd (List.isPrefixOf_iff_prefix.mpr (List.prefix_refl p)) hpre
      · exact ih hsort.2 hmem'

/-- Helper: behind a matching entry of a sorted list, the matching entries
are exactly the leading ones. -/
theorem takeWhile_eq_filter_of_sorted (p : BWord) :
    ∀ (xs : List BWord) (x : BWord),
      wlSorted (x :: xs) → p.isPrefixOf x = true →
      xs.takeWhile (fun v => p.isPrefixOf v)
        = xs.filter (fun v => p.isPrefixOf v) := by
  intro xs
  induction xs with
  | nil => intro x _ _; rfl
  | cons y ys ih =>
    intro x hsort hpre
    rw [wlSorted, List.pairwise_cons] at hsort
    by_cases hprey : p.isPrefixOf y
    · rw [List.takeWhile_cons, List.filter_cons]
      simp only [hprey, if_pos]
      rw [ih y hsort.2 hprey]
    · rw [List.takeWhile_cons, List.filter_cons]
      simp only [hprey, Bool.false_eq_true, if_false]
      have hys : ys.filter (fun v => p.isPrefixOf v) = [] := by
        rw [List.filter_eq_nil_iff]
        intro z hz hprez
        have hxy : lexLt x y = true := hsort.1 y (List.mem_cons_self y ys)
        have hyz : lexLt y z = true :=
          (List.pairwise_cons.mp hsort.2).1 z hz
        exact hprey (List.isPrefixOf_iff_prefix.mpr
          (lex_pre_between p x y z hxy hyz
            (List.isPrefixOf_iff_prefix.mp hpre)
            (List.isPrefixOf_iff_prefix.mp hprez)))
      rw [hys]

/-- Helper: on a sorted word list the scanned words of `updateMask` are
exactly the completions of the typed prefix. -/
theorem scanWords_eq_filter (wl : List BWord) (p : BWord)
    (hsort : wlSorted wl) :
    scanWords wl p = wl.filter fun v => p.isPrefixOf v := by
  induction wl with
  | nil => rfl
  | cons x xs ih =>
    by_cases hpre : p.isPrefixOf x
    · have hct : closestTail (x :: xs) p = x :: xs := by
        simp [closestTail, List.dropWhile_cons, hpre]
      rw [scanWords, hct, List.takeWhile_cons, List.filter_cons]
      simp only [hpre, if_pos]
      rw [takeWhile_eq_filter_of_sorted p xs x hsort hpre]
    · have hct : closestTail (x :: xs) p = closestTail xs p := by
        simp [closestTail, List.dropWhile_cons, hpre]
      rw [wlSorted, List.pairwise_cons] at hsort
      rw [scanWords, hct, List.filter_cons]
      simp only [hpre, Bool.false_eq_true, if_false]
      exact ih hsort.2

/-- Helper: the closest-word lookup fails exactly when the prefix has no
completion. -/
theorem closestTail_head_none_iff (wl : List BWord) (p : BWord) :
    (closestTail wl p).head? = none ↔ countPre wl p = 0 := by
  induction wl with
  | nil => simp [closestTail, countPre]
  | cons x xs ih =>
    by_cases hpre : p.isPrefixOf x
    · have hct : closestTail (x :: xs) p = x :: xs := by
        simp [closestTail, List.dropWhile_cons, hpre]
      rw [hct, countPre, List.filter_cons]
      simp [hpre]
    · have hct : closestTail (x :: xs) p = closestTail xs p := by
        simp [closestTail, List.dropWhile_cons, hpre]
      rw [hct, countPre, List.filter_cons]
      simp only [hpre, Bool.false_eq_true, if_false]
      exact ih

/-- Helper: a closest-word hit carries the typed prefix and is listed. -/
theorem closestTail_head_mem (wl : List BWord) (p : BWord) (m : BWord)
    (h : (closestTail wl p).head? = some m) :
    p.isPrefixOf m = true ∧ m ∈ wl := by
  induction wl with
  | nil => simp [closestTail] at h
  | cons x xs ih =>
    by_cases hpre : p.isPrefixOf x
    · have hct : closestTail (x :: xs) p = x :: xs := by
        simp [closestTail, List.dropWhile_cons, hpre]
      rw [hct] at h
      simp only [List.head?_cons, Option.some_inj] at h
      subst h
      exact ⟨hpre, List.mem_cons_self x xs⟩
    · have hct : closestTail (x :: xs) p = closestTail xs p := by
        simp [closestTail, List.dropWhile_cons, hpre]
      rw [hct] at h
      obtain ⟨h1, h2⟩ := ih h
      exact ⟨h1, List.mem_cons_of_mem x h2⟩

/-- Helper: the typed word of a canonical keyboard state. -/
theorem kbdState_word (wl : List BWord) (p : BWord) :
    (kbdState wl p).word = p := by
  unfold kbdState updateMask
  cases h : (closestTail wl p).head? <;> simp [h]

/-- Helper: on a sorted word list, a canonical keyboard state with at least
one completion counts exactly the completions of its typed prefix. -/
theorem kbdState_nvalid (wl : List BWord) (p : BWord) (m : BWord)
    (hsort : wlSorted wl) (h : (closestTail wl p).head? = some m) :
    (kbdState wl p).nvalid = countPre wl p := by
  unfold kbdState updateMask
  rw [h]
  simp only
  rw [scanWords_eq_filter wl p hsort]
  rfl

/-- Helper: with a unique completion the canonical state's mask marks every
key invalid. -/
theorem kbdState_mask_unique (wl : List BWord) (p : BWord) (m : BWord)
    (hsort : wlSorted wl) (h : (closestTail wl p).head? = some m)
    (hcnt : countPre wl p = 1) :
    (kbdState wl p).maskInvalid = fun _ => true := by
  unfold kbdState updateMask
  rw [h]
  simp only
  rw [if_pos]
  rw [scanWords_eq_filter wl p hsort]
  exact hcnt


/-- Helper: a listed completion makes the completion count positive. -/
theorem countPre_pos (wl : List BWord) (p w : BWord)
    (hmem : w ∈ wl) (hpre : p.isPrefixOf w = true) :
    0 < countPre wl p := by
  have hwf : w ∈ wl.filter (fun v => p.isPrefixOf v) :=
    List.mem_filter.mpr ⟨hmem, hpre⟩
  simp only [countPre]
  exact List.length_pos.mpr (List.ne_nil_of_mem hwf)

/-- Helper: with a unique completion, the head of the matching tail is that
completion. -/
theorem countPre_one_eq (wl : List BWord) (p w m : BWord)
    (hmem : w ∈ wl) (hpre : p.isPrefixOf w = true)
    (hcnt : countPre wl p = 1)
    (hm : (closestTail wl p).head? = some m) : m = w := by
  obtain ⟨hpm, hmwl⟩ := closestTail_head_mem wl p m hm
  have hmf : m ∈ wl.filter (fun v => p.isPrefixOf v) :=
    List.mem_filter.mpr ⟨hmwl, hpm⟩
  have hwf : w ∈ wl.filter (fun v => p.isPrefixOf v) :=
    List.mem_filter.mpr ⟨hmem, hpre⟩
  simp only [countPre] at hcnt
  obtain ⟨a, ha⟩ := List.length_eq_one.mp hcnt
  rw [ha, List.mem_singleton] at hmf hwf
  rw [hmf, hwf]

/-- Helper: with the all-invalid mask every letter key is a no-op, so a run
of non-backspace keys leaves the keyboard unchanged. -/
theorem kbdRune_stuck (wl : List BWord) (k : Keyboard)
    (hmask : k.maskInvalid = fun _ => true) :
    ∀ tl : List Char, (∀ c ∈ tl, c ≠ backspaceChar) →
      List.foldl (kbdRune wl) k tl = k := by
  intro tl
  induction tl with
  | nil => intro h; rfl
  | cons c tl ih =>
    intro hc
    have hnb : c ≠ backspaceChar := hc c (List.mem_cons_self c tl)
    have hval : kbdValid k c = false := by
      rw [kbdValid, if_neg hnb, hmask]
      simp
    have hstep : kbdRune wl k c = k := by
      rw [kbdRune, hval]
      rfl
    rw [List.foldl_cons, hstep]
    exact ih fun x hx => hc x (List.mem_cons_of_mem c hx)

/-- Helper: with several completions the canonical state's mask marks a key
invalid exactly when it continues none of the scanned completions. -/
theorem kbdState_mask_many (wl : List BWord) (p : BWord) (m : BWord)
    (h : (closestTail wl p).head? = some m)
    (hn : (scanWords wl p).length ≠ 1) (r : Char) :
    (kbdState wl p).maskInvalid r
      = !((scanWords wl p).any fun w =>
          decide (p.length < w.length) && (w.getD p.length 'a' == r)) := by
  unfold kbdState updateMask
  rw [h]
  simp only
  rw [if_neg]
  exact hn


/-- Helper: while the completion is not yet unique, the next letter of any
listed completion is a valid key in the canonical state. -/
theorem kbdState_valid_next (wl : List BWord) (p t : BWord) (c : Char)
    (hsort : wlSorted wl) (hmem : p ++ c :: t ∈ wl)
    (hcnt : countPre wl p ≠ 1)
    (hc : 97 ≤ c.toNat ∧ c.toNat ≤ 122) :
    kbdValid (kbdState wl p) c = true := by
  have hpre : p.isPrefixOf (p ++ c :: t) = true :=
    List.isPrefixOf_iff_prefix.mpr ⟨c :: t, rfl⟩
  have hpos := countPre_pos wl p (p ++ c :: t) hmem hpre
  have hnb : c ≠ backspaceChar := by
    intro h
    rw [h] at hc
    exact absurd hc.2 (by decide)
  obtain ⟨m, hm⟩ : ∃ m, (closestTail wl p).head? = some m := by
    cases hh : (closestTail wl p).head? with
    | none =>
      have h0 := (closestTail_head_none_iff wl p).mp hh
      omega
    | some m => exact ⟨m, rfl⟩
  have hn : (scanWords wl p).length ≠ 1 := by
    rw [scanWords_eq_filter wl p hsort]
    exact hcnt
  have hany : ((scanWords wl p).any fun w =>
      decide (p.length < w.length) && (w.getD p.length 'a' == c)) = true := by
    refine List.any_eq_true.mpr ⟨p ++ c :: t, ?_, ?_⟩
    · rw [scanWords_eq_filter wl p hsort]
      exact List.mem_filter.mpr ⟨hmem, hpre⟩
    · simp only [Bool.and_eq_true, decide_eq_true_eq, beq_iff_eq]
      refine ⟨by simp, ?_⟩
      rw [List.getD_eq_getElem?_getD, List.getElem?_append_right (le_refl p.length)]
      simp
  have hmm : (kbdState wl p).maskInvalid c = false := by
    rw [kbdState_mask_many wl p m hm hn c, hany]
    rfl
  have ha : ('a').toNat = 97 := rfl
  rw [kbdValid, if_neg hnb, hmm]
  simp only [idxOk, Bool.not_false, Bool.and_true, Bool.and_eq_true,
    decide_eq_true_eq, ha]
  omega

/-- Helper: with at least one completion, `updateMask` depends only on the
typed word. -/
theorem updateMask_congr (wl : List BWord) (k q : Keyboard) (m : BWord)
    (hw : k.word = q.word)
    (h : (closestTail wl k.word).head? = some m) :
    updateMask wl k = updateMask wl q := by
  unfold updateMask
  rw [hw] at h ⊢
  rw [h]

/-- Helper: typing the next letter of a listed completion advances the
canonical state, provided the completion is not yet unique. -/
theorem kbdRune_step (wl : List BWord) (p t : BWord) (c : Char)
    (hsort : wlSorted wl) (hmem : p ++ c :: t ∈ wl)
    (hcnt : countPre wl p ≠ 1)
    (hc : 97 ≤ c.toNat ∧ c.toNat ≤ 122) :
    kbdRune wl (kbdState wl p) c = kbdState wl (p ++ [c]) := by
  have hval := kbdState_valid_next wl p t c hsort hmem hcnt hc
  have hnb : c ≠ backspaceChar := by
    intro h
    rw [h] at hc
    exact absurd hc.2 (by decide)
  obtain ⟨m, hm⟩ : ∃ m, (closestTail wl (p ++ [c])).head? = some m := by
    cases hh : (closestTail wl (p ++ [c])).head? with
    | none =>
      have h0 := (closestTail_head_none_iff wl (p ++ [c])).mp hh
      have hpre2 : (p ++ [c]).isPrefixOf (p ++ c :: t) = true :=
        List.isPrefixOf_iff_prefix.mpr ⟨t, by simp⟩
      have := countPre_pos wl (p ++ [c]) (p ++ c :: t) hmem hpre2
      omega
    | some m => exact ⟨m, rfl⟩
  rw [kbdRune, hval]
  simp only [Bool.not_true, Bool.false_eq_true, if_false, if_neg hnb]
  exact updateMask_congr wl _ { word := p ++ [c] } m
    (by simp [kbdState_word]) (by simpa [kbdState_word] using hm)


/-- Helper: typing the remaining letters of a listed word from its canonical
prefix state always ends with `Complete` reporting exactly that word. -/
theorem keyboard_type_aux (wl : List BWord) (w : BWord)
    (hsort : wlSorted wl) (hmem : w ∈ wl)
    (hchars : ∀ v ∈ wl, ∀ c ∈ v, 97 ≤ c.toNat ∧ c.toNat ≤ 122) :
    ∀ (tl p : BWord), p ++ tl = w →
      kbdComplete wl (List.foldl (kbdRune wl) (kbdState wl p) tl)
        = (some w, true) := by
  intro tl
  induction tl with
  | nil =>
    intro p hp
    rw [List.append_nil] at hp
    subst hp
    rw [List.foldl_nil]
    unfold kbdComplete
    rw [kbdState_word, closestTail_head_self wl p hsort hmem]
    simp
  | cons c tl ih =>
    intro p hp
    have hmem2 : p ++ c :: tl ∈ wl := by rw [hp]; exact hmem
    have hpre : p.isPrefixOf (p ++ c :: tl) = true :=
      List.isPrefixOf_iff_prefix.mpr ⟨c :: tl, rfl⟩
    by_cases h1 : countPre wl p = 1
    · obtain ⟨m, hm⟩ : ∃ m, (closestTail wl p).head? = some m := by
        cases hh : (closestTail wl p).head? with
        | none =>
          have h0 := (closestTail_head_none_iff wl p).mp hh
          have := countPre_pos wl p (p ++ c :: tl) hmem2 hpre
          omega
        | some m => exact ⟨m, rfl⟩
      have hprew : p.isPrefixOf w = true := by rw [← hp]; exact hpre
      have hmw : m = w := countPre_one_eq wl p w m hmem hprew h1 hm
      have hmask := kbdState_mask_unique wl p m hsort hm h1
      have hnb : ∀ x ∈ c :: tl, x ≠ backspaceChar := by
        intro x hx heq
        have hxw : x ∈ w := by rw [← hp]; exact List.mem_append_right p hx
        have hb := hchars w hmem x hxw
        rw [heq] at hb
        exact absurd hb.2 (by decide)
      rw [kbdRune_stuck wl (kbdState wl p) hmask (c :: tl) hnb]
      unfold kbdComplete
      rw [kbdState_word, hm, hmw]
      simp [kbdState_nvalid wl p m hsort hm, h1]
    · have hcw : c ∈ w := by
        rw [← hp]
        exact List.mem_append_right p (List.mem_cons_self c tl)
      have hc := hchars w hmem c hcw
      rw [List.foldl_cons, kbdRune_step wl p tl c hsort hmem2 h1 hc]
      refine ih (p ++ [c]) ?_
      rw [List.append_assoc]
      exact hp


/-- **C10**: On a sorted lowercase word list (as `bip39.Wordlist` is),
entering the letters of a listed word on a fresh word keyboard makes
`Complete` return exactly that word marked complete; with no listed
completion of the typed prefix `Complete` reports not-complete; and with at
least one completion the typed prefix is reported complete exactly when it
equals a listed word or has precisely one listed completion. -/
theorem keyboard_complete_spec (wl : List BWord) (w : BWord)
    (hsort : wlSorted wl)
    (hchars : ∀ v ∈ wl, ∀ c ∈ v, 97 ≤ c.toNat ∧ c.toNat ≤ 122)
    (hmem : w ∈ wl) :
    kbdComplete wl (typeWord wl w) = (some w, true)
    ∧ (∀ p : BWord, countPre wl p = 0 →
        kbdComplete wl (kbdState wl p) = (none, false))
    ∧ (∀ p : BWord, 0 < countPre wl p →
        ((kbdComplete wl (kbdState wl p)).2 = true
          ↔ p ∈ wl ∨ countPre wl p = 1)) := by
  refine ⟨?_, ?_, ?_⟩
  · have h0 : kbdNew wl = kbdState wl [] := rfl
    have haux := keyboard_type_aux wl w hsort hmem hchars w [] rfl
    rw [typeWord, h0]
    exact haux
  · intro p h0
    have hh : (closestTail wl p).head? = none :=
      (closestTail_head_none_iff wl p).mpr h0
    unfold kbdComplete
    rw [kbdState_word, hh]
  · intro p hpos
    obtain ⟨m, hm⟩ : ∃ m, (closestTail wl p).head? = some m := by
      cases hh : (closestTail wl p).head? with
      | none =>
        have h0 := (closestTail_head_none_iff wl p).mp hh
        omega
      | some m => exact ⟨m, rfl⟩
    obtain ⟨hpm, hmwl⟩ := closestTail_head_mem wl p m hm
    unfold kbdComplete
    rw [kbdState_word, hm]
    simp only [Bool.or_eq_true, beq_iff_eq, kbdState_nvalid wl p m hsort hm]
    constructor
    · rintro (h1 | h2)
      · exact Or.inr h1
      · rw [h2]
        exact Or.inl hmwl
    · rintro (h1 | h2)
      · have hmp := closestTail_head_self wl p hsort h1
        rw [hmp] at hm
        exact Or.inr (Option.some.inj hm)
      · exact Or.inl h2

/-- Witness for C10: the three-word list `wl3` is sorted and lowercase and
`"ability"` is listed, so typing it on a fresh keyboard completes to exactly
`"ability"`. -/
theorem keyboard_complete_spec_witness :
    kbdComplete wl3 (typeWord wl3 ("ability".toList))
      = (some ("ability".toList), true) :=
  (keyboard_complete_spec wl3 ("ability".toList)
    (by unfold wlSorted wl3; decide) (by unfold wl3; decide)
    (by unfold wl3; decide)).1

end SHGui
